import Mathlib

/-!
Shallow embedding of the virtual-memory management core (`src/mmu.cc`) of the
repository, together with proofs settling the frozen claims about it.

Addresses, sizes and page-table entries are modelled as `Nat`.  All the C++
arithmetic involved is on `uintptr_t`/`uint64_t`; within the ranges reachable
by the kernel (far below `2^64`) the C++ operations agree with the `Nat`
operations used here, and the bit-level operations (`&`, `|`, `<<`, `>>`) are
modelled by the corresponding `Nat` bitwise operations, which coincide with
the 64-bit ones on values below `2^64`.
-/

set_option maxRecDepth 8192

namespace mmu

/-- `page_size = 4096` (src/mmu.cc, anonymous namespace). -/
def page_size : Nat := 4096

/-- `align_down(ptr) = ptr & ~(page_size - 1)`: clears the low 12 bits,
i.e. subtracts the remainder mod 4096 (src/mmu.cc `align_down`). -/
def align_down (ptr : Nat) : Nat := ptr - ptr % page_size

/-- `align_up(ptr) = align_down(ptr + page_size - 1)` (src/mmu.cc `align_up`). -/
def align_up (ptr : Nat) : Nat := align_down (ptr + page_size - 1)

/-- A virtual memory area `[s, e)`.  Models `class vma` with fields
`_start`/`_end` (src/mmu.cc); `s` is `_start`, `e` is `_end`
(`end` is a reserved word in Lean). -/
structure vma where
  s : Nat
  e : Nat
deriving DecidableEq, Repr

/-- The constructor `vma::vma(start, end)` rounds `start` down and `end` up
to page boundaries (src/mmu.cc lines 254-258). -/
def mkVma (start end_ : Nat) : vma := ⟨align_down start, align_up end_⟩

/-- `vma::size() = _end - _start` (truncated subtraction on `Nat`;
the C++ subtraction is equal on every vma the program builds). -/
def vmaSize (v : vma) : Nat := v.e - v.s

/-- Top-of-address-space marker position: `0x800000000000` (src/mmu.cc
`vma_list_type` constructor). -/
def topAddr : Nat := 0x800000000000

/-- The low sentinel `vma(0, 0)`. -/
def sentinel0 : vma := ⟨0, 0⟩

/-- The high sentinel `vma(e, e)` with `e = 0x800000000000`. -/
def sentinelTop : vma := ⟨topAddr, topAddr⟩

/-- The initial `vma_list`: the two sentinels inserted by the
`vma_list_type` constructor (src/mmu.cc lines 33-41). -/
def initList : List vma := [sentinel0, sentinelTop]

/-- Insertion into `vma_list`, a `boost::intrusive::set` ordered by
`vma_compare` (`a.addr() < b.addr()`, i.e. by `s`).  The list is kept in
ascending key order; inserting a key already present fails (unique keys),
modelled by returning the list unchanged. -/
def listInsert (n : vma) : List vma → List vma
  | [] => [n]
  | x :: xs =>
    if n.s < x.s then n :: x :: xs
    else if x.s < n.s then x :: listInsert n xs
    else x :: xs

/-- `find_hole(start, size)` (src/mmu.cc lines 148-164): scan adjacent pairs
`(p, n)`; if `start >= p->end() && start + size <= n->start()` return `start`;
else if `p->end() >= start && n->start() - p->end() >= size` return `p->end()`.
Falling off the end is `abort()`, modelled as `none`. -/
def find_hole : List vma → Nat → Nat → Option Nat
  | p :: n :: rest, start, size =>
    if p.e ≤ start ∧ start + size ≤ n.s then some start
    else if start ≤ p.e ∧ size ≤ n.s - p.e then some p.e
    else find_hole (n :: rest) start size
  | _, _, _ => none

/-- `vma::split(edge)` (src/mmu.cc lines 280-288): no-op when
`edge <= _start || edge >= _end`; otherwise truncate `_end` to `edge` in
place and build `new vma(edge, _end)` (through the aligning constructor)
for insertion.  Returns the updated vma and the optional new vma. -/
def vma_split (x : vma) (edge : Nat) : vma × Option vma :=
  if edge ≤ x.s ∨ x.e ≤ edge then (x, none)
  else (⟨x.s, edge⟩, some (mkVma edge x.e))

/-- `contains(x, y) = y.start() >= x.start() && y.end() <= x.end()`
(src/mmu.cc lines 166-169). -/
def vmaContains (x y : vma) : Prop := x.s ≤ y.s ∧ y.e ≤ x.e

instance (x y : vma) : Decidable (vmaContains x y) := by
  unfold vmaContains; infer_instance

/-- The effect of `i->split(edge)` on the tracker when the iterator points at
`x` and the list decomposes as `u ++ x :: w`: `x` is truncated in place and
the optional remainder is inserted into the ordered set. -/
def splitInTracker (u : List vma) (x : vma) (w : List vma) (edge : Nat) :
    List vma :=
  match vma_split x edge with
  | (x1, none) => u ++ x1 :: w
  | (x1, some n) => listInsert n (u ++ x1 :: w)

/-- Insertion of the optional remainder produced by `i->split(...)` into the
unvisited part of the set; `k` is the current element's key (`i->start()`),
against which — like against every key already in the set — a duplicate
insertion fails. -/
def insPiece (k : Nat) (o : Option vma) (l : List vma) : List vma :=
  match o with
  | none => l
  | some n => if n.s = k then l else listInsert n l

/-- One iteration of the `evacuate` loop (src/mmu.cc lines 171-184), plus the
remaining iterations.  The iterator runs over the ordered set from
`next(begin())` up to (excluding) `prev(end())`; the current element is the
head of the unvisited suffix.  `i->split(v->end())` and `i->split(v->start())`
insert their remainder vmas into the set: under the tracker's sortedness
invariant such a remainder always sorts after the current element, so it is
inserted into the unvisited suffix (`listInsert`); an insertion whose key
equals the current element's key — or any key already in the suffix — fails
(unique keys in the set).  The element is erased when `contains(*v, *i)`.
`fuel` bounds the number of loop iterations; `evacuate` supplies fuel proven
sufficient for every state the kernel reaches. -/
def evacGo (v : vma) : Nat → List vma → List vma
  | _, [] => []
  | _, [last] => [last]
  | 0, l => l
  | fuel + 1, x :: y :: rest =>
    let p1 := vma_split x v.e
    let p2 := vma_split p1.1 v.s
    let tail2 := insPiece x.s p2.2 (insPiece x.s p1.2 (y :: rest))
    if vmaContains v p2.1 then evacGo v fuel tail2
    else p2.1 :: evacGo v fuel tail2

/-- `evacuate(v)` (src/mmu.cc lines 171-184): iterate from `next(begin())`
to `prev(end())`, splitting each vma at `v->end()` and `v->start()` and
erasing the pieces contained in `*v`.  The positional first element is
skipped; the loop stops at the positional last element. -/
def evacuate (v : vma) (l : List vma) : List vma :=
  match l with
  | [] => []
  | x :: rest => x :: evacGo v (3 * rest.length + 3) rest

/-- `reserve(hint, size)` (src/mmu.cc lines 186-197): null hint defaults to
`0x200000000000`; `find_hole`, then insert `new vma(start, start + size)`.
`abort()` inside `find_hole` is `none`. -/
def reserve (l : List vma) (hint size : Nat) : Option (List vma × vma) :=
  let start0 := if hint = 0 then 0x200000000000 else hint
  match find_hole l start0 size with
  | none => none
  | some start =>
    let v := mkVma start (start + size)
    some (listInsert v l, v)

/-- `unmap(addr, size)` (src/mmu.cc lines 199-203): builds
`vma tmp { addr, size }` — note that the constructor's second argument is the
*end* address, so the transient vma is `vma(addr, size)`, not
`vma(addr, addr + size)` — and evacuates it. -/
def unmap (l : List vma) (addr size : Nat) : List vma :=
  evacuate (mkVma addr size) l

/-- Tracker effect of `map_anon_dontzero(start, end, perm)`
(src/mmu.cc lines 205-214): evacuate the new vma, then insert it.
(The `populate` call touches only the page table, not the tracker.) -/
def map_anon_dontzero_t (l : List vma) (start end_ : Nat) : List vma :=
  let v := mkVma start end_
  listInsert v (evacuate v l)

/-- Tracker effect of `map_anon(addr, size, perm)` (src/mmu.cc lines
216-222): `map_anon_dontzero(start, start + size, perm)` plus a `memset`
that does not touch the tracker. -/
def map_anon_t (l : List vma) (addr size : Nat) : List vma :=
  map_anon_dontzero_t l addr (addr + size)

/-- Tracker effect of `map_file(addr, size, perm, f, offset)` (src/mmu.cc
lines 224-237): if `offset >= f.size()` it is exactly `map_anon`, otherwise
`map_anon_dontzero` on the same range (the file read and memset do not touch
the tracker). -/
def map_file_t (l : List vma) (addr size fsize offset : Nat) : List vma :=
  if fsize ≤ offset then map_anon_t l addr size
  else map_anon_dontzero_t l addr (addr + size)

/-- The half-open ranges `[a, b)` and `[c, d)` overlap (share an address). -/
def rangesOverlap (a b c d : Nat) : Prop := max a c < min b d

instance (a b c d : Nat) : Decidable (rangesOverlap a b c d) := by
  unfold rangesOverlap; infer_instance

/-! ## Page tables (src/mmu.cc lines 45-146)

Physical memory holding the page tables is modelled as a function from the
byte address of an 8-byte slot to the 64-bit word stored there.  The external
physical page allocator (`memory::alloc_page`, identity-mapped through
`virt_to_phys`) is modelled as a function `alloc : Nat → Nat` giving the
address of the `k`-th page it hands out, together with a count of pages
allocated so far; its contract (page-aligned, previously unused) becomes
hypotheses of the theorems.  `processor::read_cr3()` is the parameter `cr3`. -/

/-- Machine state for the page-table walker: physical memory (an 8-byte slot
per table entry) and the number of pages obtained from the allocator. -/
structure PTState where
  mem : Nat → Nat
  cnt : Nat

/-- `pt_index(virt, level) = (v >> (12 + level * 9)) & 511`
(src/mmu.cc lines 59-63). -/
def pt_index (virt level : Nat) : Nat := (virt >>> (12 + level * 9)) &&& 511

/-- `pte_phys(pte) = pte & (((1 << 53) - 1) & ~((1 << 12) - 1))`
(src/mmu.cc lines 65-70); the mask is `2^53 - 2^12 = 0x1FFFFFFFFFF000`. -/
def pte_phys (pte : Nat) : Nat := pte &&& 0x1FFFFFFFFFF000

/-- `pte_present(pte) = pte & 1` (src/mmu.cc lines 72-75). -/
def pte_present (pte : Nat) : Prop := pte &&& 1 ≠ 0

instance (pte : Nat) : Decidable (pte_present pte) := by
  unfold pte_present; infer_instance

/-- `pte_large(pt) = pt & (1 << 7)` (src/mmu.cc lines 98-101). -/
def pte_large (pte : Nat) : Prop := pte &&& 128 ≠ 0

instance (pte : Nat) : Decidable (pte_large pte) := by
  unfold pte_large; infer_instance

/-- `make_pte(addr) = addr | 0x63` (src/mmu.cc lines 93-96). -/
def make_pte (addr : Nat) : Nat := addr ||| 0x63

/-- Write one 8-byte slot of physical memory. -/
def writeSlot (m : Nat → Nat) (a v : Nat) : Nat → Nat :=
  fun x => if x = a then v else m x

/-- `for (i = 0; i < 512; ++i) pt[i] = f i;` on the table at page `p`. -/
def fillTable (m : Nat → Nat) (p : Nat) (f : Nat → Nat) : Nat → Nat :=
  (List.range 512).foldl (fun acc i => writeSlot acc (p + 8 * i) (f i)) m

/-- `allocate_intermediate_level(ptep)` (src/mmu.cc lines 83-91): allocate a
page, zero its 512 slots, and store `pt_page | 0x63` into the caller's
entry at address `ptep`. -/
def allocate_intermediate_level (alloc : Nat → Nat) (st : PTState)
    (ptep : Nat) : PTState :=
  let pt_page := alloc st.cnt
  let m1 := fillTable st.mem pt_page (fun _ => 0)
  { mem := writeSlot m1 ptep (pt_page ||| 0x63), cnt := st.cnt + 1 }

/-- `split_large_page(ptep, level)` (src/mmu.cc lines 103-115): take the old
entry (clearing bit 7 when `level == 1`), allocate an intermediate level at
`ptep`, then fill the new table with
`pte_orig | (i << (12 + 9 * (level - 1)))`. -/
def split_large_page (alloc : Nat → Nat) (st : PTState)
    (ptep level : Nat) : PTState :=
  let pte_orig := st.mem ptep
  let pte_orig := if level = 1 then pte_orig &&& 0xFFFFFFFFFFFFFF7F
                  else pte_orig
  let st1 := allocate_intermediate_level alloc st ptep
  let pt := pte_phys (st1.mem ptep)
  { st1 with
    mem := fillTable st1.mem pt
      (fun i => pte_orig ||| (i <<< (12 + 9 * (level - 1)))) }

/-- The `while (level > 0)` walk of `populate_page` (src/mmu.cc lines
122-133), descending from `level` with the current entry at address `ptep`:
allocate an intermediate level if the entry is absent, split it if large,
then descend into the pointed-to table.  Returns the final state, the
bottom-level entry address, and the number of intermediate-level page
allocations performed (counting both `allocate_intermediate_level` and
`split_large_page`). -/
def walkStep (alloc : Nat → Nat) (addr : Nat) :
    Nat → PTState → Nat → PTState × Nat × Nat
  | 0, st, ptep => (st, ptep, 0)
  | l + 1, st, ptep =>
    let stk : PTState × Nat :=
      if ¬ pte_present (st.mem ptep) then
        (allocate_intermediate_level alloc st ptep, 1)
      else if pte_large (st.mem ptep) then
        (split_large_page alloc st ptep (l + 1), 1)
      else (st, 0)
    let pte := stk.1.mem ptep
    let pt := pte_phys pte
    let r := walkStep alloc addr l stk.1 (pt + 8 * pt_index addr l)
    (r.1, r.2.1, stk.2 + r.2.2)

/-- The bottom-level entry address for `addr` starting from the level-3
entry slot of the root table (src/mmu.cc lines 119-121). -/
def rootSlot (cr3 addr : Nat) : Nat := pte_phys cr3 + 8 * pt_index addr 3

/-- `populate_page(addr)` (src/mmu.cc lines 117-135): walk from the root
(`read_cr3()`), then `*ptep = make_pte(alloc_page())` at the bottom.
Returns the new state and the number of intermediate-level allocations. -/
def populate_page (alloc : Nat → Nat) (cr3 : Nat) (addr : Nat)
    (st : PTState) : PTState × Nat :=
  let r := walkStep alloc addr 3 st (rootSlot cr3 addr)
  let st1 := r.1
  ({ mem := writeSlot st1.mem r.2.1 (make_pte (alloc st1.cnt)),
     cnt := st1.cnt + 1 }, r.2.2)

/-- The page-aligned addresses visited by the `populate` loop
(src/mmu.cc lines 141-145): `addr = vma.addr(); addr < addr + size; addr += 4096`. -/
def pageAddrs (v : vma) : List Nat :=
  (List.range ((v.e - v.s + 4095) / 4096)).map (fun i => v.s + 4096 * i)

/-- `populate_page` over a list of addresses, accumulating the
intermediate-allocation count. -/
def populatePages (alloc : Nat → Nat) (cr3 : Nat) (st : PTState) :
    List Nat → PTState × Nat
  | [] => (st, 0)
  | a :: rest =>
    let r := populate_page alloc cr3 a st
    let r2 := populatePages alloc cr3 r.1 rest
    (r2.1, r.2 + r2.2)

/-- `populate(vma)` (src/mmu.cc lines 137-146): `populate_page` for every
page-aligned address in `[vma.addr(), vma.addr() + vma.size())`. -/
def populate (alloc : Nat → Nat) (cr3 : Nat) (v : vma) (st : PTState) :
    PTState × Nat :=
  populatePages alloc cr3 st (pageAddrs v)

/-- The entry slot reached from slot `ptep` by descending `l` more levels
reading the current memory (without modifying anything). -/
def descend (st : PTState) (addr : Nat) : Nat → Nat → Nat
  | 0, ptep => ptep
  | l + 1, ptep => descend st addr l (pte_phys (st.mem ptep) + 8 * pt_index addr l)

/-- The walk from slot `ptep` at `level` finds every entry already present
and not large, down to the bottom level. -/
def pathOKFrom (st : PTState) (addr : Nat) : Nat → Nat → Prop
  | 0, _ => True
  | l + 1, ptep =>
    pte_present (st.mem ptep) ∧ ¬ pte_large (st.mem ptep) ∧
    pathOKFrom st addr l (pte_phys (st.mem ptep) + 8 * pt_index addr l)

/-- All three non-bottom levels of `addr`'s walk are present and not large. -/
def pathOK (cr3 : Nat) (st : PTState) (addr : Nat) : Prop :=
  pathOKFrom st addr 3 (rootSlot cr3 addr)

/-- The non-address bits of a pte: everything outside the physical-address
field `[12, 53)` of a 64-bit entry — the flag bits (present, writable, user,
accessed, dirty, large, NX, ...). -/
def pte_flags (pte : Nat) : Nat := pte &&& 0xFFE0000000000FFF

/-- Well-formedness of the page-table forest in a machine state, with a
level assignment `tl` for the table pages: the root table has level 3,
table pages are page-aligned and inside the physical-address field, every
present non-large entry of a level-`l+1` table points to a level-`l` table,
and the pages the allocator will hand out next are not tables (the
allocator's previously-unused contract). -/
structure PTWF (alloc : Nat → Nat) (cr3 : Nat) (st : PTState)
    (tl : Nat → Option Nat) : Prop where
  root : tl (pte_phys cr3) = some 3
  align : ∀ p l, tl p = some l → p % 4096 = 0 ∧ p < 2 ^ 53
  child : ∀ p l, tl p = some (l + 1) → ∀ i, i < 512 →
    pte_present (st.mem (p + 8 * i)) → ¬ pte_large (st.mem (p + 8 * i)) →
    tl (pte_phys (st.mem (p + 8 * i))) = some l
  fresh : ∀ k, st.cnt ≤ k → tl (alloc k) = none

/-- A fully-materialised, typed walk for `addr` from the slot `ptep` of a
level-`L` table down to the bottom: at each level the entry is present and
not large and points to a table of the next-lower level. -/
def pathTyped (st : PTState) (tl : Nat → Option Nat) (addr : Nat) :
    Nat → Nat → Prop
  | 0, ptep => ∃ q, tl q = some 0 ∧ ptep = q + 8 * pt_index addr 0
  | l + 1, ptep =>
    (∃ q, tl q = some (l + 1) ∧ ptep = q + 8 * pt_index addr (l + 1)) ∧
    pte_present (st.mem ptep) ∧ ¬ pte_large (st.mem ptep) ∧
    pathTyped st tl addr l (pte_phys (st.mem ptep) + 8 * pt_index addr l)

/-! ## Memory contents of the mapping façade (src/mmu.cc lines 205-237)

The byte contents of virtual memory are a function `Nat → Nat`.  `memset` and
`file::read` are external collaborators modelled by their contracts: `memset`
stores `val` into `[dst, dst+cnt)`, `read` copies `cnt` file bytes starting
at `off` into `[dst, dst+cnt)`. -/

/-- A backing file: its size and its byte contents
(external collaborator `file`, used by `map_file`). -/
structure file where
  size : Nat
  data : Nat → Nat

/-- `memset(dst, val, cnt)` on a byte memory. -/
def memset (m : Nat → Nat) (dst val cnt : Nat) : Nat → Nat :=
  fun x => if dst ≤ x ∧ x < dst + cnt then val else m x

/-- `f.read(dst, off, cnt)` on a byte memory. -/
def fileRead (f : file) (m : Nat → Nat) (dst off cnt : Nat) : Nat → Nat :=
  fun x => if dst ≤ x ∧ x < dst + cnt then f.data (off + (x - dst)) else m x

/-- Modelled from the spec: `populate` materialises fresh, uninitialised
physical pages behind every address of the vma (`map_anon_raw` "leaves
contents undefined"), so the bytes of `[v.s, v.e)` become arbitrary
allocator-dependent junk, here a parameter `junk`.  The page allocator's
page contents are not in src/. -/
def populateBytes (junk : Nat → Nat) (v : vma) (m : Nat → Nat) : Nat → Nat :=
  fun x => if v.s ≤ x ∧ x < v.e then junk x else m x

/-- Byte contents after `map_anon_dontzero(start, end, perm)`
(src/mmu.cc lines 205-214): only `populate`'s effect. -/
def map_anon_dontzero_bytes (junk : Nat → Nat) (start end_ : Nat)
    (m : Nat → Nat) : Nat → Nat :=
  populateBytes junk (mkVma start end_) m

/-- Byte contents after `map_anon(addr, size, perm)` (src/mmu.cc lines
216-222): `map_anon_dontzero(start, start + size)` then
`memset(addr, 0, size)`. -/
def map_anon_bytes (junk : Nat → Nat) (addr size : Nat)
    (m : Nat → Nat) : Nat → Nat :=
  memset (map_anon_dontzero_bytes junk addr (addr + size) m) addr 0 size

/-- Byte contents after `map_file(addr, size, perm, f, offset)` (src/mmu.cc
lines 224-237): if `offset >= f.size()` exactly `map_anon`; otherwise
`map_anon_dontzero`, then read `rsize = min(offset + size, fsize) - offset`
bytes at `addr`, then `memset(addr + rsize, 0, size - rsize)`. -/
def map_file_bytes (junk : Nat → Nat) (f : file) (addr size offset : Nat)
    (m : Nat → Nat) : Nat → Nat :=
  if f.size ≤ offset then map_anon_bytes junk addr size m
  else
    let rsize := min (offset + size) f.size - offset
    memset
      (fileRead f (map_anon_dontzero_bytes junk addr (addr + size) m)
        addr offset rsize)
      (addr + rsize) 0 (size - rsize)

/-! ## Tracker invariant -/

/-- Well-formedness of a non-sentinel tracker cell: page-aligned bounds,
a positive start (the key 0 belongs to the low sentinel), a non-empty
range, and an end inside the allocatable area. -/
def midWF (x : vma) : Prop :=
  x.s % 4096 = 0 ∧ x.e % 4096 = 0 ∧ 0 < x.s ∧ x.s < x.e ∧ x.e ≤ topAddr

instance (x : vma) : Decidable (midWF x) := by
  unfold midWF; infer_instance

/-- `chainLB lb l`: the cells of `l` appear in address order, pairwise
disjoint, with the first cell starting at or after `lb`. -/
def chainLB : Nat → List vma → Prop
  | _, [] => True
  | lb, x :: xs => lb ≤ x.s ∧ chainLB x.e xs

instance chainLBDec : (lb : Nat) → (l : List vma) → Decidable (chainLB lb l)
  | _, [] => isTrue trivial
  | lb, x :: xs =>
    match chainLBDec x.e xs with
    | isTrue h =>
      if h2 : lb ≤ x.s then isTrue ⟨h2, h⟩ else isFalse (fun hc => h2 hc.1)
    | isFalse h => isFalse (fun hc => h hc.2)

/-- The non-sentinel portion of a tracker list: everything strictly between
the positional first and last elements. -/
def midOf (l : List vma) : List vma := (l.drop 1).dropLast

/-- The tracker invariant: the low sentinel first, the high sentinel last,
every cell in between well formed, and the whole list in disjoint address
order. -/
def Inv (l : List vma) : Prop :=
  l = sentinel0 :: midOf l ++ [sentinelTop] ∧
  (∀ x ∈ midOf l, midWF x) ∧
  chainLB 0 (midOf l ++ [sentinelTop])

instance (l : List vma) : Decidable (Inv l) := by
  unfold Inv; infer_instance

/-! ## Spec-side description of `find_hole` (for claim C6) -/

/-- The adjacent pairs `(p, n)` scanned by `find_hole`. -/
def pairsOf : List vma → List (vma × vma)
  | p :: n :: rest => (p, n) :: pairsOf (n :: rest)
  | _ => []

/-- The claim's first rule: the hinted start lies in the gap after `p` and
the requested size fits before `n.start`. -/
def holeCond1 (start size : Nat) (pn : vma × vma) : Bool :=
  decide (pn.1.e ≤ start ∧ start + size ≤ pn.2.s)

/-- The claim's second rule: `prev.end >= start` and the gap is large
enough. -/
def holeCond2 (start size : Nat) (pn : vma × vma) : Bool :=
  decide (start ≤ pn.1.e ∧ size ≤ pn.2.s - pn.1.e)

/-- `find_hole` as the claim describes it: return the hint for the first
pair satisfying the first rule; otherwise return `prev.end` for the first
pair satisfying the second rule. -/
def find_holeSpec (l : List vma) (start size : Nat) : Option Nat :=
  match (pairsOf l).find? (holeCond1 start size) with
  | some _ => some start
  | none => ((pairsOf l).find? (holeCond2 start size)).map (fun pn => pn.1.e)

/-! ## Call sequences against the tracker (for claim C3) -/

/-- One public tracker-mutating call.  `map_file` carries the file size and
offset it was invoked with (the file's bytes do not influence the tracker). -/
inductive MmuOp where
  | reserve (hint size : Nat)
  | unmap (addr size : Nat)
  | map_anon_dontzero (start end_ : Nat)
  | map_anon (addr size : Nat)
  | map_file (addr size fsize offset : Nat)

/-- The tracker effect of one call; `none` models `abort()` inside
`find_hole` (address-space exhaustion). -/
def applyOp : MmuOp → List vma → Option (List vma)
  | .reserve hint size, l => (reserve l hint size).map (fun r => r.1)
  | .unmap addr size, l => some (unmap l addr size)
  | .map_anon_dontzero start end_, l => some (map_anon_dontzero_t l start end_)
  | .map_anon addr size, l => some (map_anon_t l addr size)
  | .map_file addr size fsize offset, l =>
    some (map_file_t l addr size fsize offset)

/-- Run a sequence of calls from a tracker state. -/
def runOps : List MmuOp → List vma → Option (List vma)
  | [], l => some l
  | op :: ops, l =>
    match applyOp op l with
    | none => none
    | some l2 => runOps ops l2

/-- The side conditions of the amended claim C3: every requested range is
non-empty after page rounding and ends inside the allocatable area. -/
def opOK : MmuOp → Prop
  | .reserve _ size => 0 < size
  | .unmap _ _ => True
  | .map_anon_dontzero start end_ =>
    align_down start < align_up end_ ∧ align_up end_ ≤ topAddr
  | .map_anon addr size => 0 < size ∧ align_up (addr + size) ≤ topAddr
  | .map_file addr size _ _ => 0 < size ∧ align_up (addr + size) ≤ topAddr

instance (op : MmuOp) : Decidable (opOK op) := by
  cases op <;> (unfold opOK; infer_instance)

/-- The vmas of the tracker other than the two sentinels. -/
def nonSentinels (l : List vma) : List vma :=
  l.filter (fun x => decide (x ≠ sentinel0 ∧ x ≠ sentinelTop))

/-- The properties claim C3 asserts of a tracker list: every vma
page-aligned, the non-sentinel vmas sorted by start and pairwise
non-overlapping, and `end > start` for every non-sentinel vma. -/
def trackerClaimOK (l : List vma) : Prop :=
  (∀ x ∈ l, x.s % 4096 = 0 ∧ x.e % 4096 = 0) ∧
  List.Pairwise (fun a b => a.s < b.s ∧ ¬ rangesOverlap a.s a.e b.s b.e)
    (nonSentinels l) ∧
  ∀ x ∈ nonSentinels l, x.s < x.e

instance (l : List vma) : Decidable (trackerClaimOK l) := by
  unfold trackerClaimOK; infer_instance

/-! ## Alignment and list lemmas -/

theorem align_down_le (p : Nat) : align_down p ≤ p := by
  unfold align_down page_size; omega

theorem align_down_mod (p : Nat) : align_down p % 4096 = 0 := by
  unfold align_down page_size; omega

theorem align_down_eq_self {p : Nat} (h : p % 4096 = 0) : align_down p = p := by
  unfold align_down page_size; omega

theorem align_up_ge (p : Nat) : p ≤ align_up p := by
  unfold align_up align_down page_size; omega

theorem align_up_mod (p : Nat) : align_up p % 4096 = 0 := by
  unfold align_up align_down page_size; omega

theorem align_up_eq_self {p : Nat} (h : p % 4096 = 0) : align_up p = p := by
  unfold align_up align_down page_size; omega

theorem le_align_down {a p : Nat} (ha : a % 4096 = 0) (h : a ≤ p) :
    a ≤ align_down p := by
  unfold align_down page_size; omega

theorem lt_align_down {a p : Nat} (ha : a % 4096 = 0) (h : a < p) :
    a ≤ align_down p := by
  unfold align_down page_size; omega

theorem align_up_le {b p : Nat} (hb : b % 4096 = 0) (h : p ≤ b) :
    align_up p ≤ b := by
  unfold align_up align_down page_size; omega

theorem mkVma_eq {a b : Nat} (ha : a % 4096 = 0) (hb : b % 4096 = 0) :
    mkVma a b = ⟨a, b⟩ := by
  unfold mkVma
  rw [align_down_eq_self ha, align_up_eq_self hb]

theorem listInsert_head {n : vma} : ∀ {w : List vma},
    (∀ y ∈ w, n.s < y.s) → listInsert n w = n :: w
  | [], _ => rfl
  | y :: w, h => by
    unfold listInsert
    rw [if_pos (h y (List.mem_cons_self y w))]

theorem listInsert_append {n z : vma} (u : List vma) {w : List vma}
    (hu : ∀ y ∈ u, y.s < n.s) (hz : z.s < n.s) (hw : ∀ y ∈ w, n.s < y.s) :
    listInsert n (u ++ z :: w) = u ++ z :: n :: w := by
  induction u with
  | nil =>
    simp only [List.nil_append]
    unfold listInsert
    rw [if_neg (by omega), if_pos hz, listInsert_head hw]
  | cons a u ih =>
    have ha : a.s < n.s := hu a (List.mem_cons_self a u)
    simp only [List.cons_append]
    unfold listInsert
    rw [if_neg (by omega), if_pos ha,
      ih (fun y hy => hu y (List.mem_cons_of_mem a hy))]

theorem chainLB_mono {a b : Nat} {l : List vma} (h : chainLB a l) (hba : b ≤ a) :
    chainLB b l := by
  cases l with
  | nil => trivial
  | cons x xs => exact ⟨le_trans hba h.1, h.2⟩

/-! ## Claim C1 -/

/-- Claim C1 is violated by the code: `unmap(addr, size)` constructs
`vma tmp { addr, size }`, passing `size` where the constructor expects the
*end* address, so the transient vma is `[align_down addr, align_up size)`
instead of covering `[addr, addr + size)`.  With a tracker holding the VMA
`[0x10000, 0x11000)`, the call `unmap(0x10000, 0x1000)` builds the transient
vma `⟨0x10000, 0x1000⟩` and leaves the tracker unchanged, so a VMA
overlapping `[0x10000, 0x10000 + 0x1000)` survives, contradicting the claim
that afterwards no VMA in the tracker overlaps `[addr, addr + size)`. -/
theorem C1_unmap_code_bug :
    mkVma 0x10000 0x1000 = ⟨0x10000, 0x1000⟩ ∧
    unmap [sentinel0, ⟨0x10000, 0x11000⟩, sentinelTop] 0x10000 0x1000
      = [sentinel0, ⟨0x10000, 0x11000⟩, sentinelTop] ∧
    rangesOverlap 0x10000 0x11000 0x10000 (0x10000 + 0x1000) := by
  decide

/-! ## Claim C8 -/

/-- Claim C8: with page-aligned vma bounds and a page-aligned edge, and the
iterator positioned at `x` inside the ordered tracker `u ++ x :: w`,
`vma::split(edge)` with `edge` strictly inside `[s, e)` yields exactly the
two cells `[s, edge)` (the original truncated in place) and `[edge, e)` (the
inserted remainder), preserving the union of addresses and the total size;
with `edge` at or outside the bounds it changes nothing in the tracker. -/
theorem C8_split_correct (u w : List vma) (x : vma) (edge : Nat)
    (hxe : x.e % 4096 = 0) (hedge : edge % 4096 = 0)
    (hu : ∀ y ∈ u, y.s < edge) (hw : ∀ y ∈ w, edge < y.s) :
    (x.s < edge → edge < x.e →
      splitInTracker u x w edge = u ++ ⟨x.s, edge⟩ :: ⟨edge, x.e⟩ :: w ∧
      (∀ a, ((x.s ≤ a ∧ a < edge) ∨ (edge ≤ a ∧ a < x.e)) ↔
        (x.s ≤ a ∧ a < x.e)) ∧
      vmaSize ⟨x.s, edge⟩ + vmaSize ⟨edge, x.e⟩ = vmaSize x) ∧
    (edge ≤ x.s ∨ x.e ≤ edge →
      splitInTracker u x w edge = u ++ x :: w) := by
  constructor
  · intro h1 h2
    refine ⟨?_, fun a => by omega, by unfold vmaSize; dsimp; omega⟩
    unfold splitInTracker
    rw [vma_split, if_neg (by omega), mkVma_eq hedge hxe]
    exact listInsert_append u hu h1 hw
  · intro h
    unfold splitInTracker
    rw [vma_split, if_pos h]

/-- Witness for C8 at the spec's example: splitting `[0x1000, 0x5000)` at
`0x3000` inside a tracker also holding `[0, 0x1000)` and `[0x6000, 0x7000)`. -/
theorem C8_split_correct_witness :
    splitInTracker [⟨0, 0x1000⟩] ⟨0x1000, 0x5000⟩ [⟨0x6000, 0x7000⟩] 0x3000
      = [⟨0, 0x1000⟩, ⟨0x1000, 0x3000⟩, ⟨0x3000, 0x5000⟩, ⟨0x6000, 0x7000⟩] ∧
    vmaSize ⟨0x1000, 0x3000⟩ + vmaSize ⟨0x3000, 0x5000⟩
      = vmaSize ⟨0x1000, 0x5000⟩ ∧
    splitInTracker [⟨0, 0x1000⟩] ⟨0x1000, 0x5000⟩ [⟨0x6000, 0x7000⟩] 0x1000
      = [⟨0, 0x1000⟩, ⟨0x1000, 0x5000⟩, ⟨0x6000, 0x7000⟩] := by
  have h1 := (C8_split_correct [⟨0, 0x1000⟩] [⟨0x6000, 0x7000⟩]
    ⟨0x1000, 0x5000⟩ 0x3000 (by decide) (by decide)
    (by decide) (by decide)).1 (by decide) (by decide)
  have h2 := (C8_split_correct [⟨0, 0x1000⟩] [⟨0x6000, 0x7000⟩]
    ⟨0x1000, 0x5000⟩ 0x1000 (by decide) (by decide)
    (by decide) (by decide)).2 (Or.inl (by decide))
  exact ⟨h1.1, h1.2.2, h2⟩

/-! ## Claim C7 -/

/-- Claim C7: `map_file` with `offset ≥ f.size()` behaves exactly as
`map_anon` (both on the tracker and on memory contents) and the region reads
as all zeros; otherwise it maps the raw range (`map_anon_dontzero` on the
tracker), reads exactly `rsize = min(offset + size, f.size()) - offset` file
bytes into the start of the region and zero-fills the remaining
`size - rsize` bytes, so the region's prefix equals the file bytes at
`offset` and the suffix past end-of-file is zero. -/
theorem C7_map_file_bytes (junk : Nat → Nat) (f : file)
    (addr size offset : Nat) (m : Nat → Nat) (l : List vma) :
    (f.size ≤ offset →
      map_file_bytes junk f addr size offset m = map_anon_bytes junk addr size m ∧
      map_file_t l addr size f.size offset = map_anon_t l addr size ∧
      (∀ x, addr ≤ x → x < addr + size →
        map_file_bytes junk f addr size offset m x = 0)) ∧
    (offset < f.size →
      map_file_t l addr size f.size offset
        = map_anon_dontzero_t l addr (addr + size) ∧
      (∀ x, addr ≤ x → x < addr + (min (offset + size) f.size - offset) →
        map_file_bytes junk f addr size offset m x
          = f.data (offset + (x - addr))) ∧
      (∀ x, addr + (min (offset + size) f.size - offset) ≤ x →
        x < addr + size →
        map_file_bytes junk f addr size offset m x = 0)) := by
  constructor
  · intro h
    refine ⟨by rw [map_file_bytes, if_pos h], by rw [map_file_t, if_pos h], ?_⟩
    intro x hx1 hx2
    rw [map_file_bytes, if_pos h, map_anon_bytes, memset, if_pos ⟨hx1, hx2⟩]
  · intro h
    refine ⟨by rw [map_file_t, if_neg (by omega)], ?_, ?_⟩
    · intro x hx1 hx2
      rw [map_file_bytes, if_neg (by omega)]
      show memset _ _ _ _ _ = _
      rw [memset, if_neg (by omega), fileRead, if_pos ⟨hx1, by omega⟩]
    · intro x hx1 hx2
      rw [map_file_bytes, if_neg (by omega)]
      show memset _ _ _ _ _ = _
      rw [memset, if_pos ⟨by omega, by omega⟩]

/-- Witness for C7: a 4-byte file mapped at `addr = 0x100` with
`size = 8, offset = 2` reads file bytes in the prefix and zero in the
suffix; with `offset = 9 ≥ 4` the whole region reads zero. -/
theorem C7_map_file_bytes_witness :
    map_file_bytes (fun _ => 55) ⟨4, fun n => n + 10⟩ 0x100 8 2
      (fun _ => 77) 0x101 = 13 ∧
    map_file_bytes (fun _ => 55) ⟨4, fun n => n + 10⟩ 0x100 8 2
      (fun _ => 77) 0x105 = 0 ∧
    map_file_bytes (fun _ => 55) ⟨4, fun n => n + 10⟩ 0x100 8 9
      (fun _ => 77) 0x103 = 0 := by
  have h := C7_map_file_bytes (fun _ => 55) ⟨4, fun n => n + 10⟩ 0x100 8 2
    (fun _ => 77) initList
  have h9 := C7_map_file_bytes (fun _ => 55) ⟨4, fun n => n + 10⟩ 0x100 8 9
    (fun _ => 77) initList
  refine ⟨?_, ?_, ?_⟩
  · exact ((h.2 (by decide)).2.1 0x101 (by decide) (by decide)).trans (by decide)
  · exact (h.2 (by decide)).2.2 0x105 (by decide) (by decide)
  · exact (h9.1 (by decide)).2.2 0x103 (by decide) (by decide)

theorem pairs_bounds {lb : Nat} : ∀ {l : List vma}, chainLB lb l →
    (∀ x ∈ l, x.s ≤ x.e) → ∀ pn ∈ pairsOf l,
      lb ≤ pn.1.s ∧ pn.1.s ≤ pn.1.e ∧ pn.1.e ≤ pn.2.s
  | [], _, _, pn, hpn => by simp [pairsOf] at hpn
  | [_], _, _, pn, hpn => by simp [pairsOf] at hpn
  | p :: n :: rest, hc, hp, pn, hpn => by
    rw [pairsOf] at hpn
    rcases List.mem_cons.1 hpn with h | h
    · subst h
      exact ⟨hc.1, hp p (by simp), hc.2.1⟩
    · have ih := pairs_bounds hc.2
        (fun x hx => hp x (List.mem_cons_of_mem p hx)) pn h
      have h1 : lb ≤ p.s := hc.1
      have h2 : p.s ≤ p.e := hp p (by simp)
      exact ⟨by omega, ih.2⟩

theorem find_hole_eq_spec (start size : Nat) :
    ∀ (l : List vma) (lb : Nat), chainLB lb l → (∀ x ∈ l, x.s ≤ x.e) →
      find_hole l start size = find_holeSpec l start size
  | [], _, _, _ => rfl
  | [_], _, _, _ => rfl
  | p :: n :: rest, lb, hc, hp => by
    have htail : chainLB p.e (n :: rest) := hc.2
    have hptail : ∀ x ∈ n :: rest, x.s ≤ x.e :=
      fun x hx => hp x (List.mem_cons_of_mem p hx)
    by_cases c1 : p.e ≤ start ∧ start + size ≤ n.s
    · rw [find_hole, if_pos c1]
      unfold find_holeSpec
      rw [pairsOf, List.find?_cons_of_pos _ (by simp [holeCond1, c1])]
    · rw [find_hole, if_neg c1]
      by_cases c2 : start ≤ p.e ∧ size ≤ n.s - p.e
      · rw [if_pos c2]
        unfold find_holeSpec
        rw [pairsOf, List.find?_cons_of_neg _ (by simp [holeCond1]; omega)]
        cases hfind : (pairsOf (n :: rest)).find? (holeCond1 start size) with
        | none =>
          rw [List.find?_cons_of_pos _ (by simp [holeCond2, c2])]
          rfl
        | some pn =>
          have hmem := List.mem_of_find?_eq_some hfind
          have hcond := List.find?_some hfind
          simp only [holeCond1, decide_eq_true_eq] at hcond
          have hb := pairs_bounds htail hptail pn hmem
          have : p.e = start := by omega
          rw [this]
      · rw [if_neg c2]
        rw [find_hole_eq_spec start size (n :: rest) p.e htail hptail]
        unfold find_holeSpec
        rw [pairsOf, List.find?_cons_of_neg _ (by simp [holeCond1]; omega),
          List.find?_cons_of_neg _ (by simp [holeCond2]; omega)]

/-- Claim C6: on any tracker in disjoint address order, `find_hole` computes
exactly what the claim describes — the hint for the first adjacent pair whose
gap holds `[start, start + size)`, else `prev.end` for the first pair with
`prev.end ≥ start` and a large-enough gap; in particular, with the single VMA
`[0x10000, 0x20000)` between the sentinels, `find_hole(0x9000, 0x1000)`
returns `0x9000` and `find_hole(0x15000, 0x2000)` returns `0x20000`
(at/after `0x20000`). -/
theorem C6_find_hole (l : List vma) (lb start size : Nat)
    (hc : chainLB lb l) (hp : ∀ x ∈ l, x.s ≤ x.e) :
    find_hole l start size = find_holeSpec l start size ∧
    find_hole [sentinel0, ⟨0x10000, 0x20000⟩, sentinelTop] 0x9000 0x1000
      = some 0x9000 ∧
    find_hole [sentinel0, ⟨0x10000, 0x20000⟩, sentinelTop] 0x15000 0x2000
      = some 0x20000 :=
  ⟨find_hole_eq_spec start size l lb hc hp, by decide, by decide⟩

/-- Witness for C6 on a concrete in-invariant tracker. -/
theorem C6_find_hole_witness :
    find_hole [sentinel0, ⟨0x10000, 0x20000⟩, sentinelTop] 0x9000 0x1000
      = find_holeSpec [sentinel0, ⟨0x10000, 0x20000⟩, sentinelTop]
          0x9000 0x1000 :=
  (C6_find_hole [sentinel0, ⟨0x10000, 0x20000⟩, sentinelTop] 0 0x9000 0x1000
    (by decide) (by decide)).1

/-! ## The `evacuate` master lemma -/

theorem vma_split_noop {x : vma} {edge : Nat} (h : edge ≤ x.s ∨ x.e ≤ edge) :
    vma_split x edge = (x, none) := by
  unfold vma_split; rw [if_pos h]

theorem vma_split_mid {x : vma} {edge : Nat} (h1 : x.s < edge)
    (h2 : edge < x.e) :
    vma_split x edge = (⟨x.s, edge⟩, some (mkVma edge x.e)) := by
  unfold vma_split; rw [if_neg (by omega)]

theorem insPiece_none (k : Nat) (l : List vma) : insPiece k none l = l := rfl

theorem insPiece_front {k : Nat} {n : vma} {l : List vma} (hk : ¬ n.s = k)
    (hl : ∀ y ∈ l, n.s < y.s) : insPiece k (some n) l = n :: l := by
  show (if n.s = k then l else listInsert n l) = n :: l
  rw [if_neg hk, listInsert_head hl]

theorem chainLB_all_ge : ∀ {l : List vma} {lb : Nat}, chainLB lb l →
    (∀ x ∈ l, x.s ≤ x.e) → ∀ y ∈ l, lb ≤ y.s
  | [], _, _, _, _, hy => by simp at hy
  | x :: xs, lb, hc, hp, y, hy => by
    rcases List.mem_cons.1 hy with h | h
    · subst h; exact hc.1
    · have hx : x.s ≤ x.e := hp x (by simp)
      have h1 : lb ≤ x.s := hc.1
      have := chainLB_all_ge hc.2
        (fun z hz => hp z (List.mem_cons_of_mem x hz)) y h
      omega

theorem midTop_proper {mid : List vma} (h : ∀ x ∈ mid, midWF x) :
    ∀ x ∈ mid ++ [sentinelTop], x.s ≤ x.e := by
  intro x hx
  rcases List.mem_append.1 hx with h1 | h1
  · have := h x h1; unfold midWF at this; omega
  · simp at h1; subst h1; exact le_refl _

theorem evacGo_cons2 (v : vma) (f : Nat) (x : vma) (t : List vma)
    (ht : t ≠ []) :
    evacGo v (f + 1) (x :: t) =
      if vmaContains v (vma_split (vma_split x v.e).1 v.s).1 then
        evacGo v f (insPiece x.s (vma_split (vma_split x v.e).1 v.s).2
          (insPiece x.s (vma_split x v.e).2 t))
      else (vma_split (vma_split x v.e).1 v.s).1 ::
        evacGo v f (insPiece x.s (vma_split (vma_split x v.e).1 v.s).2
          (insPiece x.s (vma_split x v.e).2 t)) := by
  cases t with
  | nil => exact absurd rfl ht
  | cons y rest => rfl

/-- Master lemma for `evacuate`'s inner loop: on a well-formed suffix (cells
well formed, in disjoint address order, high sentinel last), the loop with
adequate fuel returns a suffix of the same shape in which, additionally, no
cell overlaps `[v.s, v.e)`. -/
theorem evacGo_master (v : vma) (hva : v.s % 4096 = 0)
    (hvb : v.e % 4096 = 0) :
    ∀ (mid : List vma) (lb fuel : Nat),
      3 * mid.length ≤ fuel →
      (∀ x ∈ mid, midWF x) →
      chainLB lb (mid ++ [sentinelTop]) →
      ∃ mid2,
        evacGo v fuel (mid ++ [sentinelTop]) = mid2 ++ [sentinelTop] ∧
        (∀ x ∈ mid2, midWF x) ∧
        chainLB lb (mid2 ++ [sentinelTop]) ∧
        (∀ x ∈ mid2, ¬ rangesOverlap x.s x.e v.s v.e) := by
  intro mid
  induction mid with
  | nil =>
    intro lb fuel _ _ hc
    exact ⟨[], by cases fuel <;> rfl, by simp, hc, by simp⟩
  | cons x mid0 ih =>
    intro lb fuel hfuel hwf hc
    have hx : midWF x := hwf x (by simp)
    obtain ⟨hxs4, hxe4, hxpos, hxlt, hxT⟩ := hx
    simp only [List.cons_append] at hc
    have hlb : lb ≤ x.s := hc.1
    have hcx : chainLB x.e (mid0 ++ [sentinelTop]) := hc.2
    have hwf0 : ∀ z ∈ mid0, midWF z :=
      fun z hz => hwf z (List.mem_cons_of_mem x hz)
    have hprop : ∀ z ∈ mid0 ++ [sentinelTop], z.s ≤ z.e := midTop_proper hwf0
    have hge : ∀ z ∈ mid0 ++ [sentinelTop], x.e ≤ z.s :=
      chainLB_all_ge hcx hprop
    have hne : mid0 ++ [sentinelTop] ≠ [] := by simp
    obtain ⟨f, rfl⟩ : ∃ f, fuel = f + 1 :=
      ⟨fuel - 1, by simp only [List.length_cons] at hfuel; omega⟩
    have hf : 3 * mid0.length + 2 ≤ f := by
      simp only [List.length_cons] at hfuel; omega
    simp only [List.cons_append]
    rw [evacGo_cons2 v f x (mid0 ++ [sentinelTop]) hne]
    by_cases c1 : v.e ≤ x.s ∨ x.e ≤ v.e
    · rw [vma_split_noop c1]
      dsimp only
      by_cases c2 : v.s ≤ x.s ∨ x.e ≤ v.s
      · -- neither split fires
        rw [vma_split_noop c2]
        dsimp only
        rw [insPiece_none, insPiece_none]
        by_cases hcont : vmaContains v x
        · rw [if_pos hcont]
          exact ih lb f (by omega) hwf0 (chainLB_mono hcx (by omega))
        · rw [if_neg hcont]
          obtain ⟨mid2, he, hw2, hc2, ho2⟩ := ih x.e f (by omega) hwf0 hcx
          refine ⟨x :: mid2, by rw [he]; rfl, ?_, ⟨hlb, hc2⟩, ?_⟩
          · intro z hz
            rcases List.mem_cons.1 hz with h | h
            · subst h; exact ⟨hxs4, hxe4, hxpos, hxlt, hxT⟩
            · exact hw2 z h
          · intro z hz
            rcases List.mem_cons.1 hz with h | h
            · subst h
              unfold vmaContains at hcont
              unfold rangesOverlap
              omega
            · exact ho2 z h
      · -- only the `v.s` split fires: x.s < v.s < x.e
        push_neg at c2
        obtain ⟨c2a, c2b⟩ := c2
        rw [vma_split_mid c2a c2b, mkVma_eq hva hxe4]
        dsimp only
        rw [insPiece_none,
          insPiece_front (by dsimp; omega)
            (fun z hz => by have := hge z hz; dsimp; omega),
          if_neg (show ¬ vmaContains v ⟨x.s, v.s⟩ from by
            unfold vmaContains; dsimp; omega)]
        obtain ⟨f2, rfl⟩ : ∃ f2, f = f2 + 1 := ⟨f - 1, by omega⟩
        rw [evacGo_cons2 v f2 ⟨v.s, x.e⟩ (mid0 ++ [sentinelTop]) hne,
          vma_split_noop (show v.e ≤ (⟨v.s, x.e⟩ : vma).s ∨
            (⟨v.s, x.e⟩ : vma).e ≤ v.e from by dsimp; omega)]
        dsimp only
        rw [vma_split_noop (Or.inl (by dsimp; omega))]
        dsimp only
        rw [insPiece_none, insPiece_none]
        rcases c1 with hA2a | hA2b
        · -- v.e ≤ x.s: the remainder is kept
          rw [if_neg (show ¬ vmaContains v ⟨v.s, x.e⟩ from by
            unfold vmaContains; dsimp; omega)]
          obtain ⟨mid2, he, hw2, hc2, ho2⟩ := ih x.e f2 (by omega) hwf0 hcx
          refine ⟨⟨x.s, v.s⟩ :: ⟨v.s, x.e⟩ :: mid2, by rw [he]; rfl, ?_,
            ?_, ?_⟩
          · intro z hz
            rcases List.mem_cons.1 hz with h | h
            · subst h; unfold midWF; dsimp; omega
            rcases List.mem_cons.1 h with h2 | h2
            · subst h2; unfold midWF; dsimp; omega
            · exact hw2 z h2
          · exact ⟨hlb, by dsimp; omega, hc2⟩
          · intro z hz
            rcases List.mem_cons.1 hz with h | h
            · subst h; unfold rangesOverlap; dsimp; omega
            rcases List.mem_cons.1 h with h2 | h2
            · subst h2; unfold rangesOverlap; dsimp; omega
            · exact ho2 z h2
        · -- x.e ≤ v.e: the remainder is contained and erased
          rw [if_pos (show vmaContains v ⟨v.s, x.e⟩ from
            ⟨by dsimp; omega, by dsimp; omega⟩)]
          obtain ⟨mid2, he, hw2, hc2, ho2⟩ := ih v.s f2 (by omega) hwf0
            (chainLB_mono hcx (by omega))
          refine ⟨⟨x.s, v.s⟩ :: mid2, by rw [he]; rfl, ?_, ?_, ?_⟩
          · intro z hz
            rcases List.mem_cons.1 hz with h | h
            · subst h; unfold midWF; dsimp; omega
            · exact hw2 z h
          · exact ⟨hlb, hc2⟩
          · intro z hz
            rcases List.mem_cons.1 hz with h | h
            · subst h; unfold rangesOverlap; dsimp; omega
            · exact ho2 z h
    · -- the `v.e` split fires: x.s < v.e < x.e
      push_neg at c1
      obtain ⟨c1a, c1b⟩ := c1
      rw [vma_split_mid c1a c1b, mkVma_eq hvb hxe4]
      dsimp only
      have hn1front : insPiece x.s (some ⟨v.e, x.e⟩) (mid0 ++ [sentinelTop])
          = ⟨v.e, x.e⟩ :: (mid0 ++ [sentinelTop]) :=
        insPiece_front (by dsimp; omega)
          (fun z hz => by have := hge z hz; dsimp; omega)
      by_cases c2 : v.s ≤ x.s ∨ v.e ≤ v.s
      · rw [vma_split_noop (show v.s ≤ (⟨x.s, v.e⟩ : vma).s ∨
          (⟨x.s, v.e⟩ : vma).e ≤ v.s from by dsimp; tauto)]
        dsimp only
        rw [insPiece_none, hn1front]
        by_cases hcc : v.s ≤ x.s
        · -- B1a: truncated head erased, remainder kept
          rw [if_pos (show vmaContains v ⟨x.s, v.e⟩ from
            ⟨by dsimp; omega, by dsimp; omega⟩)]
          obtain ⟨f2, rfl⟩ : ∃ f2, f = f2 + 1 := ⟨f - 1, by omega⟩
          rw [evacGo_cons2 v f2 ⟨v.e, x.e⟩ (mid0 ++ [sentinelTop]) hne,
            @vma_split_noop ⟨v.e, x.e⟩ v.e (Or.inl (Nat.le_refl _))]
          dsimp only
          rw [vma_split_noop (Or.inl (by dsimp; omega))]
          dsimp only
          rw [insPiece_none, insPiece_none,
            if_neg (show ¬ vmaContains v ⟨v.e, x.e⟩ from by
              unfold vmaContains; dsimp; omega)]
          obtain ⟨mid2, he, hw2, hc2, ho2⟩ := ih x.e f2 (by omega) hwf0 hcx
          refine ⟨⟨v.e, x.e⟩ :: mid2, by rw [he]; rfl, ?_, ?_, ?_⟩
          · intro z hz
            rcases List.mem_cons.1 hz with h | h
            · subst h; unfold midWF; dsimp; omega
            · exact hw2 z h
          · exact ⟨by dsimp; omega, hc2⟩
          · intro z hz
            rcases List.mem_cons.1 hz with h | h
            · subst h; unfold rangesOverlap; dsimp; omega
            · exact ho2 z h
        · -- B1b: head kept truncated; v.e ≤ v.s (degenerate target range)
          have hvs : v.e ≤ v.s := c2.resolve_left hcc
          rw [if_neg (show ¬ vmaContains v ⟨x.s, v.e⟩ from by
            unfold vmaContains; dsimp; omega)]
          obtain ⟨f2, rfl⟩ : ∃ f2, f = f2 + 1 := ⟨f - 1, by omega⟩
          rw [evacGo_cons2 v f2 ⟨v.e, x.e⟩ (mid0 ++ [sentinelTop]) hne,
            @vma_split_noop ⟨v.e, x.e⟩ v.e (Or.inl (Nat.le_refl _))]
          dsimp only
          by_cases hsx : v.e < v.s ∧ v.s < x.e
          · -- the second split fires on the remainder
            rw [@vma_split_mid ⟨v.e, x.e⟩ v.s (by dsimp; omega) (by dsimp; omega),
              mkVma_eq hva hxe4]
            dsimp only
            rw [insPiece_none,
              insPiece_front (by dsimp; omega)
                (fun z hz => by have := hge z hz; dsimp; omega),
              if_neg (show ¬ vmaContains v ⟨v.e, v.s⟩ from by
                unfold vmaContains; dsimp; omega)]
            obtain ⟨f3, rfl⟩ : ∃ f3, f2 = f3 + 1 := ⟨f2 - 1, by omega⟩
            rw [evacGo_cons2 v f3 ⟨v.s, x.e⟩ (mid0 ++ [sentinelTop]) hne,
              @vma_split_noop ⟨v.s, x.e⟩ v.e (Or.inl (by dsimp; omega))]
            dsimp only
            rw [vma_split_noop (Or.inl (by dsimp; omega))]
            dsimp only
            rw [insPiece_none, insPiece_none,
              if_neg (show ¬ vmaContains v ⟨v.s, x.e⟩ from by
                unfold vmaContains; dsimp; omega)]
            obtain ⟨mid2, he, hw2, hc2, ho2⟩ := ih x.e f3 (by omega) hwf0 hcx
            refine ⟨⟨x.s, v.e⟩ :: ⟨v.e, v.s⟩ :: ⟨v.s, x.e⟩ :: mid2,
              by rw [he]; rfl, ?_, ?_, ?_⟩
            · intro z hz
              rcases List.mem_cons.1 hz with h | h
              · subst h; unfold midWF; dsimp; omega
              rcases List.mem_cons.1 h with h2 | h2
              · subst h2; unfold midWF; dsimp; omega
              rcases List.mem_cons.1 h2 with h3 | h3
              · subst h3; unfold midWF; dsimp; omega
              · exact hw2 z h3
            · exact ⟨hlb, by dsimp; omega, by dsimp; omega, hc2⟩
            · intro z hz
              rcases List.mem_cons.1 hz with h | h
              · subst h; unfold rangesOverlap; dsimp; omega
              rcases List.mem_cons.1 h with h2 | h2
              · subst h2; unfold rangesOverlap; dsimp; omega
              rcases List.mem_cons.1 h2 with h3 | h3
              · subst h3; unfold rangesOverlap; dsimp; omega
              · exact ho2 z h3
          · -- the second split is a no-op on the remainder
            rw [vma_split_noop (show v.s ≤ (⟨v.e, x.e⟩ : vma).s ∨
              (⟨v.e, x.e⟩ : vma).e ≤ v.s from by dsimp; omega)]
            dsimp only
            rw [insPiece_none, insPiece_none,
              if_neg (show ¬ vmaContains v ⟨v.e, x.e⟩ from by
                unfold vmaContains; dsimp; omega)]
            obtain ⟨mid2, he, hw2, hc2, ho2⟩ := ih x.e f2 (by omega) hwf0 hcx
            refine ⟨⟨x.s, v.e⟩ :: ⟨v.e, x.e⟩ :: mid2, by rw [he]; rfl,
              ?_, ?_, ?_⟩
            · intro z hz
              rcases List.mem_cons.1 hz with h | h
              · subst h; unfold midWF; dsimp; omega
              rcases List.mem_cons.1 h with h2 | h2
              · subst h2; unfold midWF; dsimp; omega
              · exact hw2 z h2
            · exact ⟨hlb, by dsimp; omega, hc2⟩
            · intro z hz
              rcases List.mem_cons.1 hz with h | h
              · subst h; unfold rangesOverlap; dsimp; omega
              rcases List.mem_cons.1 h with h2 | h2
              · subst h2; unfold rangesOverlap; dsimp; omega
              · exact ho2 z h2
      · -- B2: both splits fire: x.s < v.s < v.e < x.e
        push_neg at c2
        obtain ⟨c2a, c2b⟩ := c2
        rw [@vma_split_mid ⟨x.s, v.e⟩ v.s (by dsimp; omega) (by dsimp; omega),
          mkVma_eq hva hvb]
        dsimp only
        rw [hn1front,
          insPiece_front (by dsimp; omega)
            (by
              intro z hz
              rcases List.mem_cons.1 hz with h | h
              · subst h; dsimp; omega
              · have := hge z h; dsimp; omega),
          if_neg (show ¬ vmaContains v ⟨x.s, v.s⟩ from by
            unfold vmaContains; dsimp; omega)]
        obtain ⟨f2, rfl⟩ : ∃ f2, f = f2 + 1 := ⟨f - 1, by omega⟩
        rw [evacGo_cons2 v f2 ⟨v.s, v.e⟩ (⟨v.e, x.e⟩ :: (mid0 ++ [sentinelTop]))
            (by simp),
          @vma_split_noop ⟨v.s, v.e⟩ v.e (Or.inr (Nat.le_refl _))]
        dsimp only
        rw [vma_split_noop (Or.inl (by dsimp; omega))]
        dsimp only
        rw [insPiece_none, insPiece_none,
          if_pos (show vmaContains v ⟨v.s, v.e⟩ from ⟨by dsimp; omega, by dsimp; omega⟩)]
        obtain ⟨f3, rfl⟩ : ∃ f3, f2 = f3 + 1 := ⟨f2 - 1, by omega⟩
        rw [evacGo_cons2 v f3 ⟨v.e, x.e⟩ (mid0 ++ [sentinelTop]) hne,
          @vma_split_noop ⟨v.e, x.e⟩ v.e (Or.inl (Nat.le_refl _))]
        dsimp only
        rw [vma_split_noop (Or.inl (by dsimp; omega))]
        dsimp only
        rw [insPiece_none, insPiece_none,
          if_neg (show ¬ vmaContains v ⟨v.e, x.e⟩ from by
            unfold vmaContains; dsimp; omega)]
        obtain ⟨mid2, he, hw2, hc2, ho2⟩ := ih x.e f3 (by omega) hwf0 hcx
        refine ⟨⟨x.s, v.s⟩ :: ⟨v.e, x.e⟩ :: mid2, by rw [he]; rfl, ?_, ?_, ?_⟩
        · intro z hz
          rcases List.mem_cons.1 hz with h | h
          · subst h; unfold midWF; dsimp; omega
          rcases List.mem_cons.1 h with h2 | h2
          · subst h2; unfold midWF; dsimp; omega
          · exact hw2 z h2
        · exact ⟨hlb, by dsimp; omega, hc2⟩
        · intro z hz
          rcases List.mem_cons.1 hz with h | h
          · subst h; unfold rangesOverlap; dsimp; omega
          rcases List.mem_cons.1 h with h2 | h2
          · subst h2; unfold rangesOverlap; dsimp; omega
          · exact ho2 z h2

theorem midOf_eq (a : vma) (mid : List vma) (b : vma) :
    midOf (a :: mid ++ [b]) = mid := by
  unfold midOf
  simp

theorem Inv_build {mid : List vma} (hwf : ∀ x ∈ mid, midWF x)
    (hc : chainLB 0 (mid ++ [sentinelTop])) :
    Inv (sentinel0 :: mid ++ [sentinelTop]) := by
  have hm : midOf (sentinel0 :: mid ++ [sentinelTop]) = mid := midOf_eq _ _ _
  exact ⟨by rw [hm], by rw [hm]; exact hwf, by rw [hm]; exact hc⟩

/-- `evacuate` on an in-invariant tracker: the sentinels stay in place, the
middle cells stay well formed and in disjoint address order, and no middle
cell overlaps `[v.s, v.e)` any more. -/
theorem evacuate_inv (v : vma) (hva : v.s % 4096 = 0) (hvb : v.e % 4096 = 0)
    {l : List vma} (hInv : Inv l) :
    ∃ mid2, evacuate v l = sentinel0 :: mid2 ++ [sentinelTop] ∧
      (∀ x ∈ mid2, midWF x) ∧ chainLB 0 (mid2 ++ [sentinelTop]) ∧
      (∀ x ∈ mid2, ¬ rangesOverlap x.s x.e v.s v.e) := by
  obtain ⟨hshape, hwf, hchain⟩ := hInv
  obtain ⟨mid2, he, hw2, hc2, ho2⟩ := evacGo_master v hva hvb (midOf l) 0
    (3 * (midOf l ++ [sentinelTop]).length + 3)
    (by simp [List.length_append]; omega) hwf hchain
  refine ⟨mid2, ?_, hw2, hc2, ho2⟩
  conv_lhs => rw [hshape]
  show sentinel0 :: evacGo v (3 * (midOf l ++ [sentinelTop]).length + 3)
    (midOf l ++ [sentinelTop]) = sentinel0 :: (mid2 ++ [sentinelTop])
  rw [he]

/-- `evacuate` preserves the tracker invariant (for any page-aligned target
vma, including degenerate or reversed ones). -/
theorem evacuate_Inv (v : vma) (hva : v.s % 4096 = 0) (hvb : v.e % 4096 = 0)
    {l : List vma} (hInv : Inv l) : Inv (evacuate v l) := by
  obtain ⟨mid2, he, hw2, hc2, _⟩ := evacuate_inv v hva hvb hInv
  rw [he]
  exact Inv_build hw2 hc2

/-! ## Claim C2 -/

/-- Claim C2: for every target vma (page-aligned bounds, as every vma the
program constructs has) and every tracker satisfying the invariant, after
`evacuate(v)` no vma in the tracker overlaps `[v.s, v.e)`; in particular,
starting from the vmas `[0, 0x2000)` and `[0x3000, 0x6000)`, evacuating
`[0x1000, 0x4000)` leaves exactly `[0, 0x1000)` and `[0x4000, 0x6000)`
between the sentinels. -/
theorem C2_evacuate_clears (v : vma) (l : List vma)
    (hva : v.s % 4096 = 0) (hvb : v.e % 4096 = 0) (hInv : Inv l) :
    (∀ x ∈ evacuate v l, ¬ rangesOverlap x.s x.e v.s v.e) ∧
    evacuate ⟨0x1000, 0x4000⟩
        [sentinel0, ⟨0, 0x2000⟩, ⟨0x3000, 0x6000⟩, sentinelTop]
      = [sentinel0, ⟨0, 0x1000⟩, ⟨0x4000, 0x6000⟩, sentinelTop] := by
  refine ⟨?_, by decide⟩
  obtain ⟨mid2, he, hw2, hc2, ho2⟩ := evacuate_inv v hva hvb hInv
  rw [he]
  intro x hx
  rcases List.mem_cons.1 hx with h | h
  · subst h; unfold rangesOverlap sentinel0; dsimp; omega
  rcases List.mem_append.1 h with h2 | h2
  · exact ho2 x h2
  · simp only [List.mem_singleton] at h2
    subst h2; unfold rangesOverlap sentinelTop; dsimp; omega

/-- Witness for C2 at a concrete invariant tracker and target: the cell
`[0x1000, 0x2000)` survives evacuating `[0x2000, 0x5000)` and indeed does
not overlap the evacuated range. -/
theorem C2_evacuate_clears_witness :
    (⟨0x1000, 0x2000⟩ : vma) ∈ evacuate ⟨0x2000, 0x5000⟩
        [sentinel0, ⟨0x1000, 0x3000⟩, sentinelTop] ∧
    ¬ rangesOverlap 0x1000 0x2000 0x2000 0x5000 :=
  ⟨by decide,
    (C2_evacuate_clears ⟨0x2000, 0x5000⟩
      [sentinel0, ⟨0x1000, 0x3000⟩, sentinelTop]
      (by decide) (by decide) (by decide)).1 ⟨0x1000, 0x2000⟩ (by decide)⟩

/-! ## Insertion into an in-invariant tracker (towards claim C3) -/

theorem listInsert_mid_inv (v : vma) (hv1 : v.s % 4096 = 0)
    (hv2 : v.e % 4096 = 0) (hvpos : 0 < v.s) (hvlt : v.s < v.e)
    (hvT : v.e ≤ topAddr) :
    ∀ (mid : List vma) (lb : Nat), lb ≤ v.s →
      (∀ x ∈ mid, midWF x) → chainLB lb (mid ++ [sentinelTop]) →
      (∀ x ∈ mid, ¬ rangesOverlap x.s x.e v.s v.e) →
      ∃ mid2, listInsert v (mid ++ [sentinelTop]) = mid2 ++ [sentinelTop] ∧
        (∀ x ∈ mid2, midWF x) ∧ chainLB lb (mid2 ++ [sentinelTop])
  | [], lb, hlb, _, _, _ => by
    refine ⟨[v], ?_, ?_, ?_⟩
    · show listInsert v [sentinelTop] = [v, sentinelTop]
      unfold listInsert
      rw [if_pos (show v.s < sentinelTop.s from by
        unfold sentinelTop; dsimp; omega)]
    · intro x hx
      simp only [List.mem_singleton] at hx
      subst hx
      exact ⟨hv1, hv2, hvpos, hvlt, hvT⟩
    · exact ⟨hlb, by unfold sentinelTop; dsimp; omega, trivial⟩
  | x :: mid0, lb, hlb, hwf, hc, hov => by
    have hx : midWF x := hwf x (by simp)
    have hovx := hov x (by simp)
    unfold midWF at hx
    unfold rangesOverlap at hovx
    simp only [List.cons_append] at hc ⊢
    rcases Nat.lt_trichotomy v.s x.s with hlt | heq | hgt
    · -- v sorts before x
      refine ⟨v :: x :: mid0, ?_, ?_, ?_⟩
      · show listInsert v (x :: (mid0 ++ [sentinelTop]))
          = v :: x :: (mid0 ++ [sentinelTop])
        unfold listInsert
        rw [if_pos hlt]
      · intro z hz
        rcases List.mem_cons.1 hz with h | h
        · subst h; exact ⟨hv1, hv2, hvpos, hvlt, hvT⟩
        · exact hwf z h
      · exact ⟨hlb, by omega, hc.2⟩
    · -- duplicate key: insertion fails, tracker unchanged
      refine ⟨x :: mid0, ?_, hwf, hc⟩
      show listInsert v (x :: (mid0 ++ [sentinelTop]))
        = x :: (mid0 ++ [sentinelTop])
      unfold listInsert
      rw [if_neg (by omega), if_neg (by omega)]
    · -- v sorts after x
      obtain ⟨mid2, he, hw2, hc2⟩ := listInsert_mid_inv v hv1 hv2 hvpos hvlt
        hvT mid0 x.e (by omega)
        (fun z hz => hwf z (List.mem_cons_of_mem x hz)) hc.2
        (fun z hz => hov z (List.mem_cons_of_mem x hz))
      refine ⟨x :: mid2, ?_, ?_, ⟨hc.1, hc2⟩⟩
      · show listInsert v (x :: (mid0 ++ [sentinelTop]))
          = x :: (mid2 ++ [sentinelTop])
        unfold listInsert
        rw [if_neg (by omega), if_pos hgt, he]
      · intro z hz
        rcases List.mem_cons.1 hz with h | h
        · subst h; exact hwf z (by simp)
        · exact hw2 z h

/-- Inserting a well-formed vma that overlaps no middle cell preserves the
tracker invariant (a duplicate-key insertion fails and changes nothing). -/
theorem listInsert_Inv (v : vma) (hv1 : v.s % 4096 = 0)
    (hv2 : v.e % 4096 = 0) (hvlt : v.s < v.e) (hvT : v.e ≤ topAddr)
    {mid : List vma} (hwf : ∀ x ∈ mid, midWF x)
    (hc : chainLB 0 (mid ++ [sentinelTop]))
    (hov : ∀ x ∈ mid, ¬ rangesOverlap x.s x.e v.s v.e) :
    Inv (listInsert v (sentinel0 :: mid ++ [sentinelTop])) := by
  by_cases h0 : v.s = 0
  · have : listInsert v (sentinel0 :: mid ++ [sentinelTop])
        = sentinel0 :: mid ++ [sentinelTop] := by
      show listInsert v (sentinel0 :: (mid ++ [sentinelTop])) = _
      unfold listInsert
      rw [if_neg (by unfold sentinel0; dsimp; omega),
        if_neg (by unfold sentinel0; dsimp; omega)]
      rfl
    rw [this]
    exact Inv_build hwf hc
  · have hvpos : 0 < v.s := by omega
    obtain ⟨mid2, he, hw2, hc2⟩ := listInsert_mid_inv v hv1 hv2 hvpos hvlt
      hvT mid 0 (by omega) hwf hc hov
    have : listInsert v (sentinel0 :: mid ++ [sentinelTop])
        = sentinel0 :: mid2 ++ [sentinelTop] := by
      show listInsert v (sentinel0 :: (mid ++ [sentinelTop]))
        = sentinel0 :: (mid2 ++ [sentinelTop])
      unfold listInsert
      rw [if_neg (by unfold sentinel0; dsimp; omega),
        if_pos (by unfold sentinel0; dsimp; omega), he]
    rw [this]
    exact Inv_build hw2 hc2

/-! ## `find_hole` soundness (towards claim C3) -/

theorem pairs_mem : ∀ {l : List vma} {pn : vma × vma}, pn ∈ pairsOf l →
    pn.1 ∈ l ∧ pn.2 ∈ l
  | [], _, h => by simp [pairsOf] at h
  | [_], _, h => by simp [pairsOf] at h
  | p :: n :: rest, pn, h => by
    rw [pairsOf] at h
    rcases List.mem_cons.1 h with h1 | h1
    · subst h1; exact ⟨by simp, by simp⟩
    · have := pairs_mem h1
      exact ⟨List.mem_cons_of_mem p this.1, List.mem_cons_of_mem p this.2⟩

theorem find_hole_sound (start size : Nat) :
    ∀ (l : List vma) (lb r : Nat), chainLB lb l →
      find_hole l start size = some r →
      ∃ pn ∈ pairsOf l, pn.1.e ≤ r ∧ r + size ≤ pn.2.s
  | [], _, _, _, h => by
    rw [show find_hole [] start size = none from rfl] at h; cases h
  | [x], _, _, _, h => by
    rw [show find_hole [x] start size = none from rfl] at h; cases h
  | p :: n :: rest, lb, r, hc, h => by
    rw [find_hole] at h
    by_cases c1 : p.e ≤ start ∧ start + size ≤ n.s
    · rw [if_pos c1] at h
      injection h with h
      subst h
      exact ⟨(p, n), by rw [pairsOf]; simp, c1.1, c1.2⟩
    · rw [if_neg c1] at h
      by_cases c2 : start ≤ p.e ∧ size ≤ n.s - p.e
      · rw [if_pos c2] at h
        injection h with h
        subst h
        have hpe : p.e ≤ n.s := hc.2.1
        exact ⟨(p, n), by rw [pairsOf]; simp, le_refl _, by dsimp; omega⟩
      · rw [if_neg c2] at h
        obtain ⟨pn, hmem, h1, h2⟩ :=
          find_hole_sound start size (n :: rest) p.e r hc.2 h
        exact ⟨pn, by rw [pairsOf]; exact List.mem_cons_of_mem _ hmem, h1, h2⟩

theorem pair_separates :
    ∀ {l : List vma} {lb : Nat}, chainLB lb l → (∀ x ∈ l, x.s ≤ x.e) →
      ∀ pn ∈ pairsOf l, ∀ x ∈ l, x.e ≤ pn.1.e ∨ pn.2.s ≤ x.s
  | [], _, _, _, pn, hpn => by simp [pairsOf] at hpn
  | [_], _, _, _, pn, hpn => by simp [pairsOf] at hpn
  | p :: n :: rest, lb, hc, hp, pn, hpn => by
    rw [pairsOf] at hpn
    rcases List.mem_cons.1 hpn with h1 | h1
    · subst h1
      intro x hx
      rcases List.mem_cons.1 hx with h2 | h2
      · subst h2; exact Or.inl (le_refl _)
      · refine Or.inr ?_
        rcases List.mem_cons.1 h2 with h3 | h3
        · subst h3; exact le_refl _
        · have hns : n.s ≤ n.e := hp n (by simp)
          have := chainLB_all_ge hc.2.2
            (fun z hz => hp z (List.mem_cons_of_mem p
              (List.mem_cons_of_mem n hz))) x h3
          dsimp
          omega
    · intro x hx
      rcases List.mem_cons.1 hx with h2 | h2
      · subst h2
        have hb := pairs_bounds hc.2
          (fun z hz => hp z (List.mem_cons_of_mem x hz)) pn h1
        exact Or.inl (by omega)
      · exact pair_separates hc.2
          (fun z hz => hp z (List.mem_cons_of_mem p hz)) pn h1 x h2

theorem Inv_elems {l : List vma} (hInv : Inv l) :
    ∀ x ∈ l, x.s % 4096 = 0 ∧ x.e % 4096 = 0 ∧ x.s ≤ x.e ∧ x.e ≤ topAddr := by
  intro x hx
  rw [hInv.1] at hx
  rcases List.mem_cons.1 hx with h | h
  · subst h; exact ⟨by decide, by decide, by decide, by decide⟩
  rcases List.mem_append.1 h with h2 | h2
  · have := hInv.2.1 x h2; unfold midWF at this; omega
  · simp only [List.mem_singleton] at h2
    subst h2
    exact ⟨by decide, by decide, by decide, by decide⟩

/-! ## Invariant preservation by each tracker operation -/

theorem unmap_Inv {l : List vma} (addr size : Nat) (hInv : Inv l) :
    Inv (unmap l addr size) :=
  evacuate_Inv (mkVma addr size) (align_down_mod addr) (align_up_mod size)
    hInv

theorem map_anon_dontzero_Inv {l : List vma} {start end_ : Nat}
    (hne : align_down start < align_up end_)
    (hT : align_up end_ ≤ topAddr) (hInv : Inv l) :
    Inv (map_anon_dontzero_t l start end_) := by
  obtain ⟨mid2, he, hw2, hc2, ho2⟩ := evacuate_inv (mkVma start end_)
    (align_down_mod start) (align_up_mod end_) hInv
  simp only [map_anon_dontzero_t]
  rw [he]
  exact listInsert_Inv (mkVma start end_) (align_down_mod start)
    (align_up_mod end_) hne hT hw2 hc2 ho2

theorem map_anon_Inv {l : List vma} {addr size : Nat} (hs : 0 < size)
    (hT : align_up (addr + size) ≤ topAddr) (hInv : Inv l) :
    Inv (map_anon_t l addr size) := by
  have h1 := align_down_le addr
  have h2 := align_up_ge (addr + size)
  exact map_anon_dontzero_Inv (by omega) hT hInv

theorem reserve_Inv {l : List vma} {hint size : Nat} {p : List vma × vma}
    (hs : 0 < size) (hInv : Inv l) (h : reserve l hint size = some p) :
    Inv p.1 := by
  simp only [reserve] at h
  cases hfh : find_hole l (if hint = 0 then 0x200000000000 else hint) size with
  | none => rw [hfh] at h; cases h
  | some r =>
    rw [hfh] at h
    injection h with h
    subst h
    dsimp only
    have hc0 : chainLB 0 l := by
      rw [hInv.1]
      exact ⟨Nat.le_refl 0, hInv.2.2⟩
    obtain ⟨pn, hpn, h1, h2⟩ := find_hole_sound _ size l 0 r hc0 hfh
    have hmem := pairs_mem hpn
    have he1 := Inv_elems hInv pn.1 hmem.1
    have he2 := Inv_elems hInv pn.2 hmem.2
    have hs1 : pn.1.e ≤ align_down r := le_align_down he1.2.1 h1
    have hs2 : align_up (r + size) ≤ pn.2.s := align_up_le he2.1 h2
    have hprop : ∀ x ∈ l, x.s ≤ x.e := fun x hx => (Inv_elems hInv x hx).2.2.1
    have hsep := pair_separates hc0 hprop pn hpn
    have hd1 := align_down_le r
    have hd2 := align_up_ge (r + size)
    rw [hInv.1]
    refine listInsert_Inv (mkVma r (r + size)) (align_down_mod r)
      (align_up_mod (r + size))
      (show align_down r < align_up (r + size) by omega)
      (show align_up (r + size) ≤ topAddr by omega) hInv.2.1 hInv.2.2 ?_
    intro x hx
    have hxl : x ∈ l := by
      rw [hInv.1]
      exact List.mem_cons_of_mem _ (List.mem_append_left _ hx)
    have hxwf := hInv.2.1 x hx
    unfold midWF at hxwf
    unfold rangesOverlap
    show ¬ max x.s (align_down r) < min x.e (align_up (r + size))
    rcases hsep x hxl with hle | hge
    · omega
    · omega

theorem applyOp_Inv {op : MmuOp} {l l2 : List vma} (hok : opOK op)
    (hInv : Inv l) (h : applyOp op l = some l2) : Inv l2 := by
  cases op with
  | reserve hint size =>
    simp only [applyOp] at h
    cases hr : reserve l hint size with
    | none => rw [hr] at h; cases h
    | some p =>
      rw [hr] at h
      injection h with h
      subst h
      exact reserve_Inv hok hInv hr
  | unmap addr size =>
    simp only [applyOp] at h
    injection h with h
    subst h
    exact unmap_Inv addr size hInv
  | map_anon_dontzero start end_ =>
    simp only [applyOp] at h
    injection h with h
    subst h
    exact map_anon_dontzero_Inv hok.1 hok.2 hInv
  | map_anon addr size =>
    simp only [applyOp] at h
    injection h with h
    subst h
    exact map_anon_Inv hok.1 hok.2 hInv
  | map_file addr size fsize offset =>
    simp only [applyOp] at h
    injection h with h
    subst h
    show Inv (map_file_t l addr size fsize offset)
    unfold map_file_t
    by_cases hof : fsize ≤ offset
    · rw [if_pos hof]
      exact map_anon_Inv hok.1 hok.2 hInv
    · rw [if_neg hof]
      have h1 := align_down_le addr
      have h2 := align_up_ge (addr + size)
      have hsz : 0 < size := hok.1
      exact map_anon_dontzero_Inv (by omega) hok.2 hInv

theorem runOps_Inv : ∀ (ops : List MmuOp) (l l2 : List vma),
    (∀ op ∈ ops, opOK op) → Inv l → runOps ops l = some l2 → Inv l2
  | [], l, l2, _, hInv, h => by
    rw [show runOps [] l = some l from rfl] at h
    injection h with h
    subst h
    exact hInv
  | op :: ops, l, l2, hok, hInv, h => by
    rw [runOps] at h
    cases ha : applyOp op l with
    | none => rw [ha] at h; cases h
    | some lmid =>
      rw [ha] at h
      exact runOps_Inv ops lmid l2
        (fun o ho => hok o (List.mem_cons_of_mem _ ho))
        (applyOp_Inv (hok op (by simp)) hInv ha) h

/-! ## From the invariant to the claim's properties -/

theorem chainLB_append_left : ∀ {l1 : List vma} {l2 : List vma} {lb : Nat},
    chainLB lb (l1 ++ l2) → chainLB lb l1
  | [], _, _, _ => trivial
  | _ :: _, _, _, h => ⟨h.1, chainLB_append_left h.2⟩

theorem chain_pairwise : ∀ {mid : List vma} {lb : Nat}, chainLB lb mid →
    (∀ x ∈ mid, midWF x) →
    List.Pairwise (fun a b => a.s < b.s ∧ ¬ rangesOverlap a.s a.e b.s b.e) mid
  | [], _, _, _ => List.Pairwise.nil
  | x :: mid0, lb, hc, hwf => by
    refine List.Pairwise.cons ?_ (chain_pairwise hc.2
      (fun z hz => hwf z (List.mem_cons_of_mem _ hz)))
    intro y hy
    have hxw := hwf x (by simp)
    have hyw := hwf y (List.mem_cons_of_mem _ hy)
    unfold midWF at hxw hyw
    have hge := chainLB_all_ge hc.2
      (fun z hz => by
        have := hwf z (List.mem_cons_of_mem _ hz)
        unfold midWF at this
        omega) y hy
    exact ⟨by omega, by unfold rangesOverlap; omega⟩

theorem nonSentinels_mid {mid : List vma} (hwf : ∀ x ∈ mid, midWF x) :
    nonSentinels (sentinel0 :: mid ++ [sentinelTop]) = mid := by
  have hpred : ∀ x ∈ mid,
      (decide (x ≠ sentinel0 ∧ x ≠ sentinelTop)) = true := by
    intro x hx
    have := hwf x hx
    unfold midWF at this
    simp only [decide_eq_true_eq]
    constructor
    · intro hxe
      rw [hxe] at this
      unfold sentinel0 at this
      dsimp at this
      omega
    · intro hxe
      rw [hxe] at this
      unfold sentinelTop at this
      dsimp at this
      omega
  show List.filter _ (sentinel0 :: (mid ++ [sentinelTop])) = mid
  rw [List.filter_cons, if_neg (by decide), List.filter_append,
    List.filter_cons, if_neg (by decide), List.filter_nil,
    List.append_nil, List.filter_eq_self.mpr hpred]

theorem Inv_claimOK {l : List vma} (hInv : Inv l) : trackerClaimOK l := by
  obtain ⟨hsh, hwf, hc⟩ := hInv
  refine ⟨?_, ?_, ?_⟩
  · intro x hx
    have := Inv_elems ⟨hsh, hwf, hc⟩ x hx
    exact ⟨this.1, this.2.1⟩
  · rw [hsh, nonSentinels_mid hwf]
    exact chain_pairwise (chainLB_append_left hc) hwf
  · rw [hsh, nonSentinels_mid hwf]
    intro x hx
    have := hwf x hx
    unfold midWF at this
    omega

/-! ## Claim C3 -/

/-- Claim C3 as frozen is false: the sequence `[map_anon(0x1000, 0)]` puts a
degenerate non-sentinel vma `[0x1000, 0x1000)` in the tracker, violating
`end > start`; and the sequence mapping `[0x900000000000, 0x900000002000)`
then `[0x900000001000, 0x900000002000)` — beyond the high sentinel, where
`evacuate`'s loop (which stops at the positional last element) never looks —
leaves two overlapping non-sentinel vmas, violating pairwise non-overlap. -/
theorem C3_counterexample :
    runOps [MmuOp.map_anon 0x1000 0] initList
      = some [sentinel0, ⟨0x1000, 0x1000⟩, sentinelTop] ∧
    ¬ trackerClaimOK [sentinel0, ⟨0x1000, 0x1000⟩, sentinelTop] ∧
    runOps [MmuOp.map_anon 0x900000000000 0x2000,
        MmuOp.map_anon 0x900000001000 0x1000] initList
      = some [sentinel0, sentinelTop, ⟨0x900000000000, 0x900000002000⟩,
          ⟨0x900000001000, 0x900000002000⟩] ∧
    ¬ trackerClaimOK [sentinel0, sentinelTop,
        ⟨0x900000000000, 0x900000002000⟩,
        ⟨0x900000001000, 0x900000002000⟩] := by
  decide

/-- Amended claim C3: for every sequence of `reserve`/`map_*`/`unmap` calls
whose requested ranges are non-empty (positive size; `end > start` after
page rounding for `map_anon_dontzero`) and lie within the allocatable area
(`align_up end ≤ 0x800000000000`) — `unmap` is unrestricted — every
reachable quiescent tracker state has page-aligned vmas, its non-sentinel
vmas pairwise non-overlapping and sorted by start, and `end > start` for
every non-sentinel vma. -/
theorem C3_invariant_amended (ops : List MmuOp) (l2 : List vma)
    (hok : ∀ op ∈ ops, opOK op) (hrun : runOps ops initList = some l2) :
    trackerClaimOK l2 :=
  Inv_claimOK (runOps_Inv ops initList l2 hok (by decide) hrun)

/-- Witness for the amended C3 on a concrete call sequence. -/
theorem C3_invariant_amended_witness :
    trackerClaimOK [sentinel0, ⟨0x1000, 0x3000⟩, sentinelTop] :=
  C3_invariant_amended [MmuOp.map_anon 0x1000 0x2000]
    [sentinel0, ⟨0x1000, 0x3000⟩, sentinelTop] (by decide) (by decide)

/-! ## Bit-level lemmas about page-table entries -/

theorem land_lor_distrib (x y m : Nat) :
    (x ||| y) &&& m = (x &&& m) ||| (y &&& m) := by
  apply Nat.eq_of_testBit_eq
  intro i
  simp only [Nat.testBit_land, Nat.testBit_lor]
  cases Nat.testBit x i <;> cases Nat.testBit y i <;>
    cases Nat.testBit m i <;> rfl

theorem testBit_of_aligned {p : Nat} (hp : p % 4096 = 0) {i : Nat}
    (hi : i < 12) : Nat.testBit p i = false := by
  have h : p = 2 ^ 12 * (p / 4096) + 0 := by omega
  rw [h, Nat.testBit_mul_pow_two_add _ (by norm_num) i, if_pos hi]
  exact Nat.zero_testBit i

theorem pow2_le_of_le {a i : Nat} (ha : a ≤ 12) (hi : 12 ≤ i) :
    (2 ^ a : Nat) ≤ 2 ^ i :=
  Nat.pow_le_pow_right (by norm_num) (by omega)

theorem testBit_of_small {f : Nat} (hf : f < 4096) {i : Nat} (hi : 12 ≤ i) :
    Nat.testBit f i = false :=
  Nat.testBit_lt_two_pow
    (lt_of_lt_of_le hf (by
      have : (4096 : Nat) = 2 ^ 12 := by norm_num
      rw [this]
      exact Nat.pow_le_pow_right (by norm_num) hi))

theorem testBit_physMask (i : Nat) :
    Nat.testBit 0x1FFFFFFFFFF000 i
      = (decide (12 ≤ i) && decide (i < 53)) := by
  have h : (0x1FFFFFFFFFF000 : Nat) = 2 ^ 12 * (2 ^ 41 - 1) + 0 := by
    norm_num
  rw [h, Nat.testBit_mul_pow_two_add _ (by norm_num) i]
  by_cases h12 : i < 12
  · rw [if_pos h12, Nat.zero_testBit]
    have : ¬ 12 ≤ i := by omega
    simp [this]
  · rw [if_neg h12, Nat.testBit_two_pow_sub_one]
    have h1 : 12 ≤ i := by omega
    by_cases h2 : i < 53
    · have : i - 12 < 41 := by omega
      simp [this, h1, h2]
    · have : ¬ i - 12 < 41 := by omega
      simp [this, h2]

theorem testBit_flagMask (i : Nat) :
    Nat.testBit 0xFFE0000000000FFF i
      = (decide (i < 12) || (decide (53 ≤ i) && decide (i < 64))) := by
  have h : (0xFFE0000000000FFF : Nat)
      = 2 ^ 53 * (2 ^ 11 - 1) + (2 ^ 12 - 1) := by norm_num
  rw [h, Nat.testBit_mul_pow_two_add _ (by norm_num) i]
  by_cases h53 : i < 53
  · rw [if_pos h53, Nat.testBit_two_pow_sub_one]
    by_cases h12 : i < 12
    · simp [h12]
    · have : ¬ 53 ≤ i := by omega
      simp [h12, this]
  · rw [if_neg h53, Nat.testBit_two_pow_sub_one]
    have h1 : 53 ≤ i := by omega
    have h2 : ¬ i < 12 := by omega
    by_cases h3 : i < 64
    · have : i - 53 < 11 := by omega
      simp [this, h1, h2, h3]
    · have : ¬ i - 53 < 11 := by omega
      simp [this, h2, h3]

/-- `pte_phys (p | f) = p` for a page-aligned physical address inside the
physical field and flag bits below bit 12. -/
theorem pte_phys_or_small {p f : Nat} (hp4 : p % 4096 = 0)
    (hp53 : p < 2 ^ 53) (hf : f < 4096) : pte_phys (p ||| f) = p := by
  unfold pte_phys
  apply Nat.eq_of_testBit_eq
  intro i
  simp only [Nat.testBit_land, Nat.testBit_lor, testBit_physMask]
  by_cases h12 : i < 12
  · rw [testBit_of_aligned hp4 h12]
    have : ¬ 12 ≤ i := by omega
    simp [this]
  · have h1 : 12 ≤ i := by omega
    rw [testBit_of_small hf h1]
    by_cases h2 : i < 53
    · simp [h1, h2]
    · have : Nat.testBit p i = false :=
        Nat.testBit_lt_two_pow
          (lt_of_lt_of_le hp53 (Nat.pow_le_pow_right (by norm_num) (by omega)))
      simp [this, h2]

/-- Low flag bits of `p | f` come from `f` alone when `p` is page-aligned. -/
theorem land_or_aligned {p : Nat} (f : Nat) {c : Nat} (hp4 : p % 4096 = 0)
    (hc : c < 4096) : (p ||| f) &&& c = f &&& c := by
  apply Nat.eq_of_testBit_eq
  intro i
  simp only [Nat.testBit_land, Nat.testBit_lor]
  by_cases h12 : i < 12
  · rw [testBit_of_aligned hp4 h12]
    rfl
  · rw [testBit_of_small hc (by omega)]
    simp

theorem testBit_shifted (i s j : Nat) :
    Nat.testBit (i <<< s) j
      = if j < s then false else Nat.testBit i (j - s) := by
  have h : i <<< s = 2 ^ s * i + 0 := by
    rw [Nat.shiftLeft_eq]; ring
  rw [h, Nat.testBit_mul_pow_two_add _ (Nat.pos_pow_of_pos s (by norm_num)) j]
  by_cases hj : j < s
  · rw [if_pos hj, if_pos hj, Nat.zero_testBit]
  · rw [if_neg hj, if_neg hj]

/-- A value shifted left by at least 12 bits contributes nothing to the
low flag bits. -/
theorem shift_land_small {i s c : Nat} (hs : 12 ≤ s) (hc : c < 4096) :
    (i <<< s) &&& c = 0 := by
  apply Nat.eq_of_testBit_eq
  intro j
  simp only [Nat.testBit_land, Nat.zero_testBit]
  by_cases hj : j < 12
  · rw [testBit_shifted, if_pos (by omega)]
    rfl
  · rw [testBit_of_small hc (by omega)]
    simp

/-- The index contribution `i << s` lies inside the physical field. -/
theorem shift_land_physMask {i s : Nat} (hi : i < 512) (hs : 12 ≤ s)
    (hs2 : s + 9 ≤ 53) : (i <<< s) &&& 0x1FFFFFFFFFF000 = i <<< s := by
  apply Nat.eq_of_testBit_eq
  intro j
  simp only [Nat.testBit_land, testBit_physMask]
  rw [testBit_shifted]
  by_cases hj : j < s
  · simp [hj]
  · rw [if_neg hj]
    by_cases hb : Nat.testBit i (j - s) = true
    · have : j - s < 9 := by
        by_contra hge
        rw [Nat.testBit_lt_two_pow (lt_of_lt_of_le hi (by
          have h512 : (512 : Nat) = 2 ^ 9 := by norm_num
          rw [h512]
          exact Nat.pow_le_pow_right (by norm_num) (by omega)))] at hb
        cases hb
      have e1 : 12 ≤ j := by omega
      have e2 : j < 53 := by omega
      simp [hb, e1, e2]
    · simp only [Bool.not_eq_true] at hb
      simp [hb]

/-- The index contribution `i << s` contributes nothing to the flag bits. -/
theorem shift_land_flagMask {i s : Nat} (hi : i < 512) (hs : 12 ≤ s)
    (hs2 : s + 9 ≤ 53) : (i <<< s) &&& 0xFFE0000000000FFF = 0 := by
  apply Nat.eq_of_testBit_eq
  intro j
  simp only [Nat.testBit_land, Nat.zero_testBit, testBit_flagMask]
  rw [testBit_shifted]
  by_cases hj : j < s
  · simp [hj]
  · rw [if_neg hj]
    by_cases hb : Nat.testBit i (j - s) = true
    · have : j - s < 9 := by
        by_contra hge
        rw [Nat.testBit_lt_two_pow (lt_of_lt_of_le hi (by
          have h512 : (512 : Nat) = 2 ^ 9 := by norm_num
          rw [h512]
          exact Nat.pow_le_pow_right (by norm_num) (by omega)))] at hb
        cases hb
      have e1 : ¬ j < 12 := by omega
      have e2 : ¬ 53 ≤ j := by omega
      simp [e1, e2]
    · simp only [Bool.not_eq_true] at hb
      simp [hb]

/-- Disjoint or is addition: a window-aligned base or-ed with a value that
fits below the window. -/
theorem lor_eq_add_pow {k m c : Nat} (hc : c < 2 ^ k) :
    (2 ^ k * m) ||| c = 2 ^ k * m + c := by
  apply Nat.eq_of_testBit_eq
  intro j
  rw [Nat.testBit_mul_pow_two_add _ hc j]
  simp only [Nat.testBit_lor]
  by_cases hj : j < k
  · rw [if_pos hj]
    have h : (2 ^ k * m) = 2 ^ k * m + 0 := by omega
    rw [h, Nat.testBit_mul_pow_two_add _ (Nat.pos_pow_of_pos k (by norm_num)) j,
      if_pos hj, Nat.zero_testBit]
    rfl
  · rw [if_neg hj]
    have hcj : Nat.testBit c j = false :=
      Nat.testBit_lt_two_pow (lt_of_lt_of_le hc
        (Nat.pow_le_pow_right (by norm_num) (by omega)))
    have h : (2 ^ k * m) = 2 ^ k * m + 0 := by omega
    rw [h, Nat.testBit_mul_pow_two_add _ (Nat.pos_pow_of_pos k (by norm_num)) j,
      if_neg hj]
    simp [hcj]

theorem slots_eq {p q i j : Nat} (hp : p % 4096 = 0) (hq : q % 4096 = 0)
    (hi : i < 512) (hj : j < 512) (h : p + 8 * i = q + 8 * j) :
    p = q ∧ i = j := by omega

theorem pt_index_lt (virt level : Nat) : pt_index virt level < 512 := by
  have : pt_index virt level ≤ 511 := Nat.and_le_right
  omega

/-! ## Reading back table writes -/

theorem writeSlot_at (m : Nat → Nat) (a v : Nat) : writeSlot m a v a = v := by
  unfold writeSlot
  rw [if_pos rfl]

theorem writeSlot_ne (m : Nat → Nat) (a v : Nat) {x : Nat} (h : x ≠ a) :
    writeSlot m a v x = m x := by
  unfold writeSlot
  rw [if_neg h]

theorem foldl_write_eq (p : Nat) (f : Nat → Nat) :
    ∀ (js : List Nat) (m : Nat → Nat) (x : Nat),
      (js.foldl (fun acc i => writeSlot acc (p + 8 * i) (f i)) m) x
        = if ∃ i ∈ js, x = p + 8 * i then f ((x - p) / 8) else m x
  | [], m, x => by simp
  | j :: js, m, x => by
    rw [List.foldl_cons, foldl_write_eq p f js _ x]
    have hiff : (∃ i ∈ j :: js, x = p + 8 * i) ↔
        (x = p + 8 * j ∨ ∃ i ∈ js, x = p + 8 * i) := by
      constructor
      · rintro ⟨i, hi, hx⟩
        rcases List.mem_cons.1 hi with h | h
        · subst h; exact Or.inl hx
        · exact Or.inr ⟨i, h, hx⟩
      · rintro (hx | ⟨i, hi, hx⟩)
        · exact ⟨j, by simp, hx⟩
        · exact ⟨i, List.mem_cons_of_mem _ hi, hx⟩
    by_cases hxj : x = p + 8 * j
    · by_cases hex : ∃ i ∈ js, x = p + 8 * i
      · rw [if_pos hex, if_pos (hiff.mpr (Or.inl hxj))]
      · rw [if_neg hex, if_pos (hiff.mpr (Or.inl hxj))]
        unfold writeSlot
        rw [if_pos hxj]
        congr 1
        omega
    · by_cases hex : ∃ i ∈ js, x = p + 8 * i
      · rw [if_pos hex, if_pos (hiff.mpr (Or.inr hex))]
      · rw [if_neg hex,
          if_neg (fun hc => (hiff.mp hc).elim hxj hex)]
        unfold writeSlot
        rw [if_neg hxj]

theorem fillTable_at {m : Nat → Nat} {p : Nat} {f : Nat → Nat} {j : Nat}
    (hj : j < 512) : fillTable m p f (p + 8 * j) = f j := by
  unfold fillTable
  rw [foldl_write_eq, if_pos ⟨j, List.mem_range.2 hj, rfl⟩]
  congr 1
  omega

theorem fillTable_out {m : Nat → Nat} {p : Nat} {f : Nat → Nat} {x : Nat}
    (hx : ∀ j, j < 512 → x ≠ p + 8 * j) : fillTable m p f x = m x := by
  unfold fillTable
  rw [foldl_write_eq, if_neg]
  rintro ⟨i, hi, hxi⟩
  exact hx i (List.mem_range.1 hi) hxi

theorem fillTable_out_slot {m : Nat → Nat} {p : Nat} {f : Nat → Nat}
    {q j : Nat} (hp : p % 4096 = 0) (hq : q % 4096 = 0) (hne : q ≠ p)
    (hj : j < 512) : fillTable m p f (q + 8 * j) = m (q + 8 * j) :=
  fillTable_out (fun j2 hj2 heq => hne (slots_eq hq hp hj hj2 heq).1)

/-! ## Claim C5 -/

/-- Claim C5 as frozen is false on one point: the entry rewritten by
`allocate_intermediate_level` is `pt_page | 0x63`, and `0x63` has bits 0
(present), 1 (writable), 5 (accessed) and 6 (dirty) set — bit 2, the
user/supervisor flag, is *not* set.  Concretely, with the allocator
returning page `0x1000` and the caller's entry at address 0, the rewritten
entry is `0x1063`, whose user bit (`& 4`) is zero. -/
theorem C5_counterexample :
    (allocate_intermediate_level (fun _ => 0x1000)
        ⟨fun _ => 0, 0⟩ 0).mem 0 = 0x1063 ∧
    0x1063 &&& 4 = 0 ∧ ¬ (0x1063 &&& 4 ≠ 0) := by
  refine ⟨?_, by decide, by decide⟩
  show writeSlot (fillTable (fun _ => 0) 0x1000 (fun _ => 0)) 0
    (0x1000 ||| 0x63) 0 = 0x1063
  rw [writeSlot_at]
  decide

/-- Amended claim C5: `allocate_intermediate_level` allocates one physical
page, writes zero into all 512 slots of the new table, and rewrites the
caller's entry to hold the new table's physical address with the present,
writable, accessed and dirty bits set and the user bit clear. -/
theorem C5_allocate_intermediate (alloc : Nat → Nat) (st : PTState)
    (ptep : Nat) (hF4 : alloc st.cnt % 4096 = 0)
    (hF53 : alloc st.cnt < 2 ^ 53)
    (hsep : ∀ j, j < 512 → ptep ≠ alloc st.cnt + 8 * j) :
    (allocate_intermediate_level alloc st ptep).mem ptep
      = alloc st.cnt ||| 0x63 ∧
    (∀ j, j < 512 →
      (allocate_intermediate_level alloc st ptep).mem (alloc st.cnt + 8 * j)
        = 0) ∧
    (allocate_intermediate_level alloc st ptep).cnt = st.cnt + 1 ∧
    pte_phys ((allocate_intermediate_level alloc st ptep).mem ptep)
      = alloc st.cnt ∧
    pte_present ((allocate_intermediate_level alloc st ptep).mem ptep) ∧
    (allocate_intermediate_level alloc st ptep).mem ptep &&& 2 ≠ 0 ∧
    (allocate_intermediate_level alloc st ptep).mem ptep &&& 32 ≠ 0 ∧
    (allocate_intermediate_level alloc st ptep).mem ptep &&& 64 ≠ 0 ∧
    (allocate_intermediate_level alloc st ptep).mem ptep &&& 4 = 0 := by
  have h1 : (allocate_intermediate_level alloc st ptep).mem ptep
      = alloc st.cnt ||| 0x63 := by
    show writeSlot (fillTable st.mem (alloc st.cnt) (fun _ => 0)) ptep
      (alloc st.cnt ||| 0x63) ptep = _
    rw [writeSlot_at]
  refine ⟨h1, ?_, rfl, ?_, ?_, ?_, ?_, ?_, ?_⟩
  · intro j hj
    show writeSlot (fillTable st.mem (alloc st.cnt) (fun _ => 0)) ptep
      (alloc st.cnt ||| 0x63) (alloc st.cnt + 8 * j) = 0
    rw [writeSlot_ne _ _ _ (fun hc => hsep j hj hc.symm), fillTable_at hj]
  · rw [h1]
    exact pte_phys_or_small hF4 hF53 (by norm_num)
  · unfold pte_present
    rw [h1, land_or_aligned _ hF4 (by norm_num)]
    decide
  · rw [h1, land_or_aligned _ hF4 (by norm_num)]
    decide
  · rw [h1, land_or_aligned _ hF4 (by norm_num)]
    decide
  · rw [h1, land_or_aligned _ hF4 (by norm_num)]
    decide
  · rw [h1, land_or_aligned _ hF4 (by norm_num)]
    decide

/-! ## Claim C4 -/

theorem physMask_land_clear7 :
    (0xFFFFFFFFFFFFFF7F : Nat) &&& 0x1FFFFFFFFFF000 = 0x1FFFFFFFFFF000 := by
  decide

theorem clear7_land_128 : (0xFFFFFFFFFFFFFF7F : Nat) &&& 128 = 0 := by
  decide

/-- Claim C4: `split_large_page(entry, L)` (1 ≤ L ≤ 3) on a large entry with
physical base `A` (aligned to the large-page size `2^(12+9·(L-1)+9)`)
installs a fresh intermediate table in the entry and fills its 512 entries
so that entry `i` maps physical address `A + i · 2^(12+9·(L-1))` with the
original flag bits, the large bit being cleared exactly when `L = 1` (the
new entries are bottom-level leaves).  The allocator hypotheses are its
contract: a page-aligned page inside the physical field, not aliasing the
entry being rewritten. -/
theorem C4_split_large_page (alloc : Nat → Nat) (st : PTState)
    (ptep L : Nat) (hL1 : 1 ≤ L) (hL3 : L ≤ 3)
    (hlarge : pte_large (st.mem ptep))
    (halign : pte_phys (st.mem ptep) % 2 ^ (12 + 9 * (L - 1) + 9) = 0)
    (hF4 : alloc st.cnt % 4096 = 0) (hF53 : alloc st.cnt < 2 ^ 53)
    (hsep : ∀ j, j < 512 → ptep ≠ alloc st.cnt + 8 * j) :
    (split_large_page alloc st ptep L).mem ptep = alloc st.cnt ||| 0x63 ∧
    pte_phys ((split_large_page alloc st ptep L).mem ptep) = alloc st.cnt ∧
    pte_present ((split_large_page alloc st ptep L).mem ptep) ∧
    (split_large_page alloc st ptep L).cnt = st.cnt + 1 ∧
    ∀ i, i < 512 →
      (split_large_page alloc st ptep L).mem (alloc st.cnt + 8 * i)
        = (if L = 1 then st.mem ptep &&& 0xFFFFFFFFFFFFFF7F
           else st.mem ptep) ||| (i <<< (12 + 9 * (L - 1))) ∧
      pte_phys ((split_large_page alloc st ptep L).mem (alloc st.cnt + 8 * i))
        = pte_phys (st.mem ptep) + i * 2 ^ (12 + 9 * (L - 1)) ∧
      pte_flags ((split_large_page alloc st ptep L).mem (alloc st.cnt + 8 * i))
        = (if L = 1 then pte_flags (st.mem ptep) &&& 0xFFFFFFFFFFFFFF7F
           else pte_flags (st.mem ptep)) ∧
      (L = 1 →
        ¬ pte_large ((split_large_page alloc st ptep L).mem
          (alloc st.cnt + 8 * i))) ∧
      (2 ≤ L →
        pte_large ((split_large_page alloc st ptep L).mem
          (alloc st.cnt + 8 * i))) := by
  have hs1 : 12 ≤ 12 + 9 * (L - 1) := by omega
  have hs2 : 12 + 9 * (L - 1) + 9 ≤ 53 := by omega
  have h63 : (0x63 : Nat) < 4096 := by norm_num
  have hmem1 : ∀ x, (split_large_page alloc st ptep L).mem x
      = fillTable
          (writeSlot (fillTable st.mem (alloc st.cnt) (fun _ => 0)) ptep
            (alloc st.cnt ||| 0x63))
          (pte_phys (writeSlot (fillTable st.mem (alloc st.cnt) (fun _ => 0))
            ptep (alloc st.cnt ||| 0x63) ptep))
          (fun i => (if L = 1 then st.mem ptep &&& 0xFFFFFFFFFFFFFF7F
            else st.mem ptep) ||| (i <<< (12 + 9 * (L - 1)))) x :=
    fun x => rfl
  have hpt : pte_phys (writeSlot (fillTable st.mem (alloc st.cnt)
      (fun _ => 0)) ptep (alloc st.cnt ||| 0x63) ptep) = alloc st.cnt := by
    rw [writeSlot_at]
    exact pte_phys_or_small hF4 hF53 h63
  have hptep : (split_large_page alloc st ptep L).mem ptep
      = alloc st.cnt ||| 0x63 := by
    rw [hmem1, hpt,
      fillTable_out (fun j hj hc => hsep j hj hc), writeSlot_at]
  have horig2 : ∀ i, i < 512 →
      (split_large_page alloc st ptep L).mem (alloc st.cnt + 8 * i)
        = (if L = 1 then st.mem ptep &&& 0xFFFFFFFFFFFFFF7F
           else st.mem ptep) ||| (i <<< (12 + 9 * (L - 1))) := by
    intro i hi
    rw [hmem1, hpt, fillTable_at hi]
  refine ⟨hptep, by rw [hptep]; exact pte_phys_or_small hF4 hF53 h63, ?_,
    rfl, ?_⟩
  · unfold pte_present
    rw [hptep, land_or_aligned _ hF4 (by norm_num)]
    decide
  intro i hi
  have hval := horig2 i hi
  have hphys2 : pte_phys ((if L = 1 then st.mem ptep &&& 0xFFFFFFFFFFFFFF7F
      else st.mem ptep)) = pte_phys (st.mem ptep) := by
    by_cases hL : L = 1
    · rw [if_pos hL]
      unfold pte_phys
      rw [Nat.land_assoc, physMask_land_clear7]
    · rw [if_neg hL]
  refine ⟨hval, ?_, ?_, ?_, ?_⟩
  · -- physical address of entry i
    rw [hval]
    unfold pte_phys at hphys2 ⊢
    rw [land_lor_distrib, hphys2, shift_land_physMask hi hs1 hs2]
    have hdvd : (2 : Nat) ^ (12 + 9 * (L - 1) + 9)
        ∣ st.mem ptep &&& 0x1FFFFFFFFFF000 :=
      Nat.dvd_of_mod_eq_zero halign
    have hA : 2 ^ (12 + 9 * (L - 1) + 9)
        * ((st.mem ptep &&& 0x1FFFFFFFFFF000) / 2 ^ (12 + 9 * (L - 1) + 9))
        = st.mem ptep &&& 0x1FFFFFFFFFF000 :=
      Nat.mul_div_cancel' hdvd
    have hc : i <<< (12 + 9 * (L - 1)) < 2 ^ (12 + 9 * (L - 1) + 9) := by
      rw [Nat.shiftLeft_eq]
      have h9 : (2 : Nat) ^ (12 + 9 * (L - 1) + 9)
          = 512 * 2 ^ (12 + 9 * (L - 1)) := by
        rw [Nat.pow_add]
        ring
      rw [h9]
      exact mul_lt_mul_of_pos_right hi (Nat.pos_pow_of_pos _ (by norm_num))
    rw [← hA, lor_eq_add_pow hc, hA, Nat.shiftLeft_eq]
  · -- flag bits of entry i
    rw [hval]
    unfold pte_flags
    rw [land_lor_distrib, shift_land_flagMask hi hs1 hs2, Nat.or_zero]
    by_cases hL : L = 1
    · rw [if_pos hL, if_pos hL, Nat.land_assoc, Nat.land_assoc,
        Nat.land_comm 0xFFFFFFFFFFFFFF7F 0xFFE0000000000FFF]
    · rw [if_neg hL, if_neg hL]
  · -- large bit cleared at the bottom level
    intro hL
    unfold pte_large
    rw [hval, if_pos hL, land_lor_distrib,
      shift_land_small hs1 (by norm_num), Nat.or_zero, Nat.land_assoc,
      clear7_land_128, Nat.and_zero _]
    simp
  · -- large bit kept at higher levels
    intro hL
    unfold pte_large
    have hL1' : ¬ L = 1 := by omega
    rw [hval, if_neg hL1', land_lor_distrib,
      shift_land_small hs1 (by norm_num), Nat.or_zero]
    exact hlarge

/-- Witness for C4: splitting a large 2MB entry with base `0x200000` at
level 1 installed at entry address 0, allocator page `0x5000`. -/
theorem C4_split_large_page_witness :
    pte_phys ((split_large_page (fun _ => 0x5000)
        ⟨fun x => if x = 0 then 0x2000E3 else 0, 0⟩ 0 1).mem
      (0x5000 + 8 * 1)) = 0x200000 + 1 * 2 ^ 12 ∧
    ¬ pte_large ((split_large_page (fun _ => 0x5000)
        ⟨fun x => if x = 0 then 0x2000E3 else 0, 0⟩ 0 1).mem
      (0x5000 + 8 * 1)) := by
  have h := C4_split_large_page (fun _ => 0x5000)
    ⟨fun x => if x = 0 then 0x2000E3 else 0, 0⟩ 0 1 (by decide) (by decide)
    (by decide) (by decide) (by decide) (by decide)
    (by intro j hj; dsimp only; omega)
  have h2 := h.2.2.2.2 1 (by decide)
  refine ⟨?_, h2.2.2.2.1 rfl⟩
  have := h2.2.1
  rw [this]
  decide

/-! ## The no-op walk (towards claims C9 and C10) -/

instance pathOKFromDec (st : PTState) (addr : Nat) :
    (L : Nat) → (ptep : Nat) → Decidable (pathOKFrom st addr L ptep)
  | 0, _ => isTrue trivial
  | L + 1, ptep =>
    have : Decidable (pathOKFrom st addr L
        (pte_phys (st.mem ptep) + 8 * pt_index addr L)) :=
      pathOKFromDec st addr L _
    by unfold pathOKFrom; infer_instance

instance (cr3 : Nat) (st : PTState) (addr : Nat) :
    Decidable (pathOK cr3 st addr) := by
  unfold pathOK; infer_instance

/-- When every non-bottom entry on the walk is present and not large, the
walk allocates nothing, changes nothing, and lands on the bottom slot. -/
theorem walkStep_noop (alloc : Nat → Nat) (addr : Nat) :
    ∀ (L : Nat) (st : PTState) (ptep : Nat), pathOKFrom st addr L ptep →
      walkStep alloc addr L st ptep = (st, descend st addr L ptep, 0)
  | 0, _, _, _ => rfl
  | L + 1, st, ptep, h => by
    obtain ⟨hp, hl, hrest⟩ := h
    show walkStep alloc addr (L + 1) st ptep = _
    rw [walkStep, if_neg (not_not_intro hp), if_neg hl]
    dsimp only
    rw [walkStep_noop alloc addr L st _ hrest]
    rfl

theorem populate_page_noop (alloc : Nat → Nat) (cr3 addr : Nat)
    (st : PTState) (h : pathOK cr3 st addr) :
    populate_page alloc cr3 addr st
      = ({ mem := writeSlot st.mem (descend st addr 3 (rootSlot cr3 addr))
             (make_pte (alloc st.cnt)), cnt := st.cnt + 1 }, 0) := by
  unfold populate_page
  rw [walkStep_noop alloc addr 3 st _ h]

/-! ## Claim C10 -/

/-- Claim C10: for an address whose bottom-level entry is already present
(the page is already mapped and the walk finds every level in place),
`populate_page` unconditionally overwrites the leaf entry with a freshly
allocated physical page: the new entry is `make_pte(alloc_page())`, its
physical address is the fresh page — not the old one (the allocator's
previously-unused contract makes them distinct) — the old page is never
read or freed (the definition contains no free operation), and no
intermediate allocations happen. -/
theorem C10_populate_page_overwrites (alloc : Nat → Nat) (cr3 addr : Nat)
    (st : PTState) (h : pathOK cr3 st addr)
    (hold : pte_present (st.mem (descend st addr 3 (rootSlot cr3 addr))))
    (hF4 : alloc st.cnt % 4096 = 0) (hF53 : alloc st.cnt < 2 ^ 53)
    (hfresh : alloc st.cnt
      ≠ pte_phys (st.mem (descend st addr 3 (rootSlot cr3 addr)))) :
    (populate_page alloc cr3 addr st).1.mem
        (descend st addr 3 (rootSlot cr3 addr))
      = make_pte (alloc st.cnt) ∧
    pte_phys ((populate_page alloc cr3 addr st).1.mem
        (descend st addr 3 (rootSlot cr3 addr)))
      = alloc st.cnt ∧
    pte_phys ((populate_page alloc cr3 addr st).1.mem
        (descend st addr 3 (rootSlot cr3 addr)))
      ≠ pte_phys (st.mem (descend st addr 3 (rootSlot cr3 addr))) ∧
    (populate_page alloc cr3 addr st).2 = 0 ∧
    (populate_page alloc cr3 addr st).1.cnt = st.cnt + 1 := by
  rw [populate_page_noop alloc cr3 addr st h]
  dsimp only
  rw [writeSlot_at]
  have hphys : pte_phys (make_pte (alloc st.cnt)) = alloc st.cnt := by
    unfold make_pte
    exact pte_phys_or_small hF4 hF53 (by norm_num)
  exact ⟨rfl, hphys, by rw [hphys]; exact hfresh, rfl, rfl⟩

/-- Witness for C10 on a concrete fully-mapped state. -/
theorem C10_populate_page_overwrites_witness :
    (populate_page (fun _ => 0x4000) 0 0
        ⟨fun x => if x = 0 then 0x1063 else if x = 0x1000 then 0x2063
          else if x = 0x2000 then 0x3063
          else if x = 0x3000 then 0x9063 else 0, 0⟩).1.mem 0x3000
      = make_pte 0x4000 ∧
    (populate_page (fun _ => 0x4000) 0 0
        ⟨fun x => if x = 0 then 0x1063 else if x = 0x1000 then 0x2063
          else if x = 0x2000 then 0x3063
          else if x = 0x3000 then 0x9063 else 0, 0⟩).2 = 0 := by
  have h := C10_populate_page_overwrites (fun _ => 0x4000) 0 0
    ⟨fun x => if x = 0 then 0x1063 else if x = 0x1000 then 0x2063
      else if x = 0x2000 then 0x3063
      else if x = 0x3000 then 0x9063 else 0, 0⟩
    (by decide) (by decide) (by decide) (by decide) (by decide)
  have hd : descend
      ⟨fun x => if x = 0 then 0x1063 else if x = 0x1000 then 0x2063
        else if x = 0x2000 then 0x3063
        else if x = 0x3000 then 0x9063 else 0, 0⟩ 0 3 (rootSlot 0 0)
      = 0x3000 := by decide
  rw [hd] at h
  exact ⟨h.1, h.2.2.2.1⟩

/-! ## Typed paths: projection and stability -/

theorem pathTyped_pathOKFrom {st : PTState} {tl : Nat → Option Nat}
    {addr : Nat} : ∀ {L ptep : Nat}, pathTyped st tl addr L ptep →
      pathOKFrom st addr L ptep
  | 0, _, _ => trivial
  | _ + 1, _, h => ⟨h.2.1, h.2.2.1, pathTyped_pathOKFrom h.2.2.2⟩

/-- A typed path survives any state change that keeps the values of
present-and-not-large entries of every typed table, and any extension of
the typing. -/
theorem pathTyped_stable {st st2 : PTState} {tl tl2 : Nat → Option Nat}
    {addr : Nat} (hext : ∀ q m, tl q = some m → tl2 q = some m)
    (hpres : ∀ q m j, tl q = some (m + 1) → j < 512 →
      pte_present (st.mem (q + 8 * j)) → ¬ pte_large (st.mem (q + 8 * j)) →
      st2.mem (q + 8 * j) = st.mem (q + 8 * j)) :
    ∀ {L ptep : Nat}, pathTyped st tl addr L ptep →
      pathTyped st2 tl2 addr L ptep
  | 0, _, ⟨q, hq, he⟩ => ⟨q, hext q 0 hq, he⟩
  | L + 1, ptep, ⟨⟨q, hq, he⟩, hp, hl, hrest⟩ => by
    have hv : st2.mem ptep = st.mem ptep := by
      rw [he]
      rw [he] at hp hl
      exact hpres q L (pt_index addr (L + 1)) hq (pt_index_lt _ _) hp hl
    exact ⟨⟨q, hext q (L + 1) hq, he⟩, by rw [hv]; exact hp,
      by rw [hv]; exact hl,
      by rw [hv]; exact pathTyped_stable hext hpres hrest⟩

/-- The bottom slot a typed path reaches is a slot of a level-0 table. -/
theorem pathTyped_descend {st : PTState} {tl : Nat → Option Nat}
    {addr : Nat} : ∀ {L ptep : Nat}, pathTyped st tl addr L ptep →
      ∃ q0, tl q0 = some 0 ∧
        descend st addr L ptep = q0 + 8 * pt_index addr 0
  | 0, ptep, ⟨q, hq, he⟩ => ⟨q, hq, he⟩
  | L + 1, ptep, h => by
    rw [descend]
    exact pathTyped_descend h.2.2.2

/-- Writing a leaf entry (a slot of a level-0 table) and bumping the
allocation count preserves the page-table well-formedness. -/
theorem PTWF_writeLeaf {alloc : Nat → Nat} {cr3 : Nat} {st : PTState}
    {tl : Nat → Option Nat} (hwf : PTWF alloc cr3 st tl) {q0 : Nat}
    (hq0 : tl q0 = some 0) {j0 : Nat} (hj0 : j0 < 512) (val : Nat) :
    PTWF alloc cr3 ⟨writeSlot st.mem (q0 + 8 * j0) val, st.cnt + 1⟩ tl := by
  refine ⟨hwf.root, hwf.align, ?_,
    fun k hk => hwf.fresh k (by dsimp only at hk; omega)⟩
  intro q m hq j hj hp hl
  have hne : q + 8 * j ≠ q0 + 8 * j0 := by
    intro hc
    have := slots_eq (hwf.align q _ hq).1 (hwf.align q0 _ hq0).1 hj hj0 hc
    rw [this.1, hq0] at hq
    cases hq
  dsimp only at hp hl ⊢
  rw [writeSlot_ne _ _ _ hne] at hp hl ⊢
  exact hwf.child q m hq j hj hp hl

/-- Writing a leaf entry preserves every typed path. -/
theorem pathTyped_writeLeaf {tl : Nat → Option Nat}
    (halignf : ∀ p l, tl p = some l → p % 4096 = 0) {st : PTState}
    {q0 : Nat} (hq0 : tl q0 = some 0) {j0 : Nat} (hj0 : j0 < 512)
    (val c2 : Nat) {addr L ptep : Nat} (h : pathTyped st tl addr L ptep) :
    pathTyped ⟨writeSlot st.mem (q0 + 8 * j0) val, c2⟩ tl addr L ptep := by
  refine pathTyped_stable (fun q m hq => hq) ?_ h
  intro q m j hq hj _ _
  show writeSlot st.mem (q0 + 8 * j0) val (q + 8 * j) = st.mem (q + 8 * j)
  apply writeSlot_ne
  intro hc
  have := slots_eq (halignf q _ hq) (halignf q0 _ hq0) hj hj0 hc
  rw [this.1, hq0] at hq
  cases hq

/-! ## Entry values after the two table-building operations -/

theorem present_table_entry {F : Nat} (hF4 : F % 4096 = 0) :
    pte_present (F ||| 0x63) := by
  unfold pte_present
  rw [land_or_aligned _ hF4 (by norm_num)]
  decide

theorem not_large_table_entry {F : Nat} (hF4 : F % 4096 = 0) :
    ¬ pte_large (F ||| 0x63) := by
  unfold pte_large
  rw [land_or_aligned _ hF4 (by norm_num)]
  decide

theorem large_fill_entry {orig j s : Nat} (hs : 12 ≤ s)
    (h : pte_large orig) : pte_large (orig ||| (j <<< s)) := by
  unfold pte_large at h ⊢
  rw [land_lor_distrib, shift_land_small hs (by norm_num), Nat.or_zero]
  exact h

theorem not_present_zero : ¬ pte_present 0 := by decide

theorem alloc_mem_at (alloc : Nat → Nat) (st : PTState) (ptep : Nat) :
    (allocate_intermediate_level alloc st ptep).mem ptep
      = alloc st.cnt ||| 0x63 := by
  show writeSlot (fillTable st.mem (alloc st.cnt) (fun _ => 0)) ptep
    (alloc st.cnt ||| 0x63) ptep = _
  rw [writeSlot_at]

theorem alloc_mem_page {alloc : Nat → Nat} {st : PTState} {ptep j : Nat}
    (hj : j < 512) (hsep : ptep ≠ alloc st.cnt + 8 * j) :
    (allocate_intermediate_level alloc st ptep).mem (alloc st.cnt + 8 * j)
      = 0 := by
  show writeSlot (fillTable st.mem (alloc st.cnt) (fun _ => 0)) ptep
    (alloc st.cnt ||| 0x63) (alloc st.cnt + 8 * j) = 0
  rw [writeSlot_ne _ _ _ (fun hc => hsep hc.symm), fillTable_at hj]

theorem alloc_mem_other {alloc : Nat → Nat} {st : PTState} {ptep x : Nat}
    (hx : x ≠ ptep) (hxF : ∀ j, j < 512 → x ≠ alloc st.cnt + 8 * j) :
    (allocate_intermediate_level alloc st ptep).mem x = st.mem x := by
  show writeSlot (fillTable st.mem (alloc st.cnt) (fun _ => 0)) ptep
    (alloc st.cnt ||| 0x63) x = st.mem x
  rw [writeSlot_ne _ _ _ hx, fillTable_out hxF]

theorem split_mem_ptep {alloc : Nat → Nat} {st : PTState} {ptep : Nat}
    (level : Nat) (hF4 : alloc st.cnt % 4096 = 0)
    (hF53 : alloc st.cnt < 2 ^ 53)
    (hsep : ∀ j, j < 512 → ptep ≠ alloc st.cnt + 8 * j) :
    (split_large_page alloc st ptep level).mem ptep
      = alloc st.cnt ||| 0x63 := by
  show fillTable (allocate_intermediate_level alloc st ptep).mem
    (pte_phys ((allocate_intermediate_level alloc st ptep).mem ptep))
    (fun i => (if level = 1 then st.mem ptep &&& 0xFFFFFFFFFFFFFF7F
      else st.mem ptep) ||| (i <<< (12 + 9 * (level - 1)))) ptep = _
  rw [alloc_mem_at, pte_phys_or_small hF4 hF53 (by norm_num),
    fillTable_out (fun j hj hc => hsep j hj hc), alloc_mem_at]

theorem split_mem_page {alloc : Nat → Nat} {st : PTState} {ptep : Nat}
    (level : Nat) {j : Nat} (hF4 : alloc st.cnt % 4096 = 0)
    (hF53 : alloc st.cnt < 2 ^ 53) (hj : j < 512) :
    (split_large_page alloc st ptep level).mem (alloc st.cnt + 8 * j)
      = (if level = 1 then st.mem ptep &&& 0xFFFFFFFFFFFFFF7F
         else st.mem ptep) ||| (j <<< (12 + 9 * (level - 1))) := by
  show fillTable (allocate_intermediate_level alloc st ptep).mem
    (pte_phys ((allocate_intermediate_level alloc st ptep).mem ptep))
    (fun i => (if level = 1 then st.mem ptep &&& 0xFFFFFFFFFFFFFF7F
      else st.mem ptep) ||| (i <<< (12 + 9 * (level - 1))))
    (alloc st.cnt + 8 * j) = _
  rw [alloc_mem_at, pte_phys_or_small hF4 hF53 (by norm_num),
    fillTable_at hj]

theorem split_mem_other {alloc : Nat → Nat} {st : PTState} {ptep : Nat}
    (level : Nat) {x : Nat} (hF4 : alloc st.cnt % 4096 = 0)
    (hF53 : alloc st.cnt < 2 ^ 53) (hx : x ≠ ptep)
    (hxF : ∀ j, j < 512 → x ≠ alloc st.cnt + 8 * j) :
    (split_large_page alloc st ptep level).mem x = st.mem x := by
  show fillTable (allocate_intermediate_level alloc st ptep).mem
    (pte_phys ((allocate_intermediate_level alloc st ptep).mem ptep))
    (fun i => (if level = 1 then st.mem ptep &&& 0xFFFFFFFFFFFFFF7F
      else st.mem ptep) ||| (i <<< (12 + 9 * (level - 1)))) x = st.mem x
  rw [alloc_mem_at, pte_phys_or_small hF4 hF53 (by norm_num),
    fillTable_out hxF, alloc_mem_other hx hxF]

/-! ## Preservation of well-formedness by the walk -/

/-- Installing a fresh table at slot `p + 8*i` of a level-`L+1` table
preserves well-formedness once the fresh page is typed at level `L`: the
caller's entry now holds `alloc st.cnt ||| 0x63`, every present entry of
the fresh page is large (so never constrains a child), and every other
slot of a typed table is unchanged. -/
theorem PTWF_newTable {alloc : Nat → Nat} {cr3 : Nat} {st stc : PTState}
    {tl : Nat → Option Nat} {p L i : Nat}
    (hwf : PTWF alloc cr3 st tl) (htlp : tl p = some (L + 1)) (hi : i < 512)
    (Hinj : ∀ j k, alloc j = alloc k → j = k)
    (hF4 : alloc st.cnt % 4096 = 0) (hF53 : alloc st.cnt < 2 ^ 53)
    (hcnt : stc.cnt = st.cnt + 1)
    (hat : stc.mem (p + 8 * i) = alloc st.cnt ||| 0x63)
    (hFpage : ∀ m, L = m + 1 → ∀ j, j < 512 →
      pte_present (stc.mem (alloc st.cnt + 8 * j)) →
      pte_large (stc.mem (alloc st.cnt + 8 * j)))
    (hother : ∀ q m j, tl q = some m → j < 512 →
      q + 8 * j ≠ p + 8 * i → stc.mem (q + 8 * j) = st.mem (q + 8 * j)) :
    PTWF alloc cr3 stc
      (fun q => if q = alloc st.cnt then some L else tl q) := by
  have hqF : ∀ q m, tl q = some m → q ≠ alloc st.cnt := by
    intro q m hq hc
    rw [hc, hwf.fresh st.cnt (Nat.le_refl _)] at hq
    cases hq
  refine ⟨?_, ?_, ?_, ?_⟩
  · show (if pte_phys cr3 = alloc st.cnt then some L
      else tl (pte_phys cr3)) = some 3
    rw [if_neg (hqF _ 3 hwf.root)]
    exact hwf.root
  · intro q l hq
    by_cases hq' : q = alloc st.cnt
    · subst hq'
      exact ⟨hF4, hF53⟩
    · rw [if_neg hq'] at hq
      exact hwf.align q l hq
  · intro q m hq j hj hpj hlj
    by_cases hq' : q = alloc st.cnt
    · subst hq'
      rw [if_pos rfl] at hq
      injection hq with hLm
      exact absurd (hFpage m hLm j hj hpj) hlj
    · rw [if_neg hq'] at hq
      by_cases hslot : q + 8 * j = p + 8 * i
      · have hqp := slots_eq (hwf.align q _ hq).1 (hwf.align p _ htlp).1
          hj hi hslot
        rw [hqp.1, htlp] at hq
        injection hq with h'
        have hmL : m = L := by omega
        rw [hslot, hat, pte_phys_or_small hF4 hF53 (by norm_num)]
        rw [if_pos rfl, hmL]
      · have hv := hother q (m + 1) j hq hj hslot
        rw [hv] at hpj hlj ⊢
        have hchild := hwf.child q m hq j hj hpj hlj
        rw [if_neg (hqF _ m hchild)]
        exact hchild
  · intro k hk
    rw [hcnt] at hk
    have hkF : alloc k ≠ alloc st.cnt := by
      intro hc
      have := Hinj k st.cnt hc
      omega
    rw [if_neg hkF]
    exact hwf.fresh k (by omega)

/-- Main preservation lemma for the walk (src/mmu.cc lines 122-133):
starting at the slot of a typed level-`L` table, the walk keeps the
page-table forest well-formed for an extended typing, preserves the
values of present-and-not-large entries of previously typed tables,
consumes at most `L` allocator pages, and leaves a fully typed path from
the start slot down to a slot of a level-0 table — the slot it returns. -/
theorem walkStep_wf {alloc : Nat → Nat} {cr3 : Nat} {addr : Nat}
    (Ha4 : ∀ k, alloc k % 4096 = 0)
    (Hinj : ∀ j k, alloc j = alloc k → j = k) :
    ∀ (L : Nat) (st : PTState) (tl : Nat → Option Nat) (p : Nat),
      PTWF alloc cr3 st tl → tl p = some L →
      (∀ k, st.cnt ≤ k → k < st.cnt + L → alloc k < 2 ^ 53) →
      ∃ tl2 : Nat → Option Nat,
        (∀ q m, tl q = some m → tl2 q = some m) ∧
        PTWF alloc cr3
          (walkStep alloc addr L st (p + 8 * pt_index addr L)).1 tl2 ∧
        st.cnt ≤ (walkStep alloc addr L st (p + 8 * pt_index addr L)).1.cnt ∧
        (walkStep alloc addr L st (p + 8 * pt_index addr L)).1.cnt
          ≤ st.cnt + L ∧
        (∀ q m j, tl q = some (m + 1) → j < 512 →
          pte_present (st.mem (q + 8 * j)) →
          ¬ pte_large (st.mem (q + 8 * j)) →
          (walkStep alloc addr L st (p + 8 * pt_index addr L)).1.mem
            (q + 8 * j) = st.mem (q + 8 * j)) ∧
        pathTyped (walkStep alloc addr L st (p + 8 * pt_index addr L)).1
          tl2 addr L (p + 8 * pt_index addr L) ∧
        ∃ q0, tl2 q0 = some 0 ∧
          (walkStep alloc addr L st (p + 8 * pt_index addr L)).2.1
            = q0 + 8 * pt_index addr 0
  | 0, st, tl, p, hwf, htlp, _ =>
    ⟨tl, fun _ _ h => h, hwf, Nat.le_refl _, Nat.le_add_right _ _,
      fun _ _ _ _ _ _ _ => rfl, ⟨p, htlp, rfl⟩, p, htlp, rfl⟩
  | L + 1, st, tl, p, hwf, htlp, Hb => by
    have hp4 := (hwf.align p _ htlp).1
    have hF4 : alloc st.cnt % 4096 = 0 := Ha4 st.cnt
    have hF53 : alloc st.cnt < 2 ^ 53 :=
      Hb st.cnt (Nat.le_refl _) (by omega)
    have hqF : ∀ q m, tl q = some m → q ≠ alloc st.cnt := by
      intro q m hq hc
      rw [hc, hwf.fresh st.cnt (Nat.le_refl _)] at hq
      cases hq
    have hslot_notF : ∀ q m j, tl q = some m → j < 512 →
        ∀ j2, j2 < 512 → q + 8 * j ≠ alloc st.cnt + 8 * j2 := by
      intro q m j hq hj j2 hj2 hc
      exact hqF q m hq (slots_eq (hwf.align q _ hq).1 hF4 hj hj2 hc).1
    have hsep := hslot_notF p (L + 1) (pt_index addr (L + 1)) htlp
      (pt_index_lt addr (L + 1))
    by_cases hp : pte_present (st.mem (p + 8 * pt_index addr (L + 1)))
    · by_cases hlg : pte_large (st.mem (p + 8 * pt_index addr (L + 1)))
      · -- present and large: split_large_page, then descend into the copy
        have hstep : walkStep alloc addr (L + 1) st
            (p + 8 * pt_index addr (L + 1))
            = ((walkStep alloc addr L
                  (split_large_page alloc st
                    (p + 8 * pt_index addr (L + 1)) (L + 1))
                  (alloc st.cnt + 8 * pt_index addr L)).1,
               (walkStep alloc addr L
                  (split_large_page alloc st
                    (p + 8 * pt_index addr (L + 1)) (L + 1))
                  (alloc st.cnt + 8 * pt_index addr L)).2.1,
               1 + (walkStep alloc addr L
                  (split_large_page alloc st
                    (p + 8 * pt_index addr (L + 1)) (L + 1))
                  (alloc st.cnt + 8 * pt_index addr L)).2.2) := by
          rw [walkStep, if_neg (not_not_intro hp), if_pos hlg]
          dsimp only
          rw [split_mem_ptep (L + 1) hF4 hF53 hsep,
            pte_phys_or_small hF4 hF53 (by norm_num)]
        rw [hstep]
        dsimp only
        have hwfc := PTWF_newTable hwf htlp (pt_index_lt addr (L + 1))
          Hinj hF4 hF53 rfl (split_mem_ptep (L + 1) hF4 hF53 hsep)
          (by
            intro m hLm j hj hpj
            rw [split_mem_page (L + 1) hF4 hF53 hj]
            rw [if_neg (by omega : ¬ (L + 1 = 1))]
            exact large_fill_entry (by omega) hlg)
          (fun q m j hq hj hne =>
            split_mem_other (L + 1) hF4 hF53 hne (hslot_notF q m j hq hj))
        obtain ⟨tl2, hext2, hwf2, hcl, hcu, hpres2, hpath2, q0, hq0, hbot⟩ :=
          walkStep_wf Ha4 Hinj L
            (split_large_page alloc st (p + 8 * pt_index addr (L + 1)) (L + 1))
            (fun q => if q = alloc st.cnt then some L else tl q)
            (alloc st.cnt) hwfc
            (show (if alloc st.cnt = alloc st.cnt then some L
                else tl (alloc st.cnt)) = some L by rw [if_pos rfl])
            (by
              intro k h1 h2
              have hcc : (split_large_page alloc st
                  (p + 8 * pt_index addr (L + 1)) (L + 1)).cnt
                  = st.cnt + 1 := rfl
              exact Hb k (by omega) (by omega))
        have hext : ∀ q m, tl q = some m → tl2 q = some m := by
          intro q m hq
          exact hext2 q m (show (if q = alloc st.cnt then some L else tl q)
            = some m by rw [if_neg (hqF q m hq)]; exact hq)
        have hpres : ∀ q m j, tl q = some (m + 1) → j < 512 →
            pte_present (st.mem (q + 8 * j)) →
            ¬ pte_large (st.mem (q + 8 * j)) →
            (walkStep alloc addr L
                (split_large_page alloc st
                  (p + 8 * pt_index addr (L + 1)) (L + 1))
                (alloc st.cnt + 8 * pt_index addr L)).1.mem (q + 8 * j)
              = st.mem (q + 8 * j) := by
          intro q m j hq hj hpj hlj
          have hne : q + 8 * j ≠ p + 8 * pt_index addr (L + 1) := by
            intro hc
            rw [hc] at hlj
            exact hlj hlg
          have hv := split_mem_other (L + 1) hF4 hF53 hne
            (hslot_notF q (m + 1) j hq hj)
          have h2 := hpres2 q m j
            (show (if q = alloc st.cnt then some L else tl q) = some (m + 1)
              by rw [if_neg (hqF q (m + 1) hq)]; exact hq) hj
            (by rw [hv]; exact hpj) (by rw [hv]; exact hlj)
          rw [h2, hv]
        refine ⟨tl2, hext, hwf2, ?_, ?_, hpres, ?_, q0, hq0, hbot⟩
        · have hcc : (split_large_page alloc st
              (p + 8 * pt_index addr (L + 1)) (L + 1)).cnt = st.cnt + 1 := rfl
          omega
        · have hcc : (split_large_page alloc st
              (p + 8 * pt_index addr (L + 1)) (L + 1)).cnt = st.cnt + 1 := rfl
          omega
        · have hval : (walkStep alloc addr L
              (split_large_page alloc st
                (p + 8 * pt_index addr (L + 1)) (L + 1))
              (alloc st.cnt + 8 * pt_index addr L)).1.mem
              (p + 8 * pt_index addr (L + 1)) = alloc st.cnt ||| 0x63 := by
            have h2 := hpres2 p L (pt_index addr (L + 1))
              (show (if p = alloc st.cnt then some L else tl p)
                = some (L + 1) by rw [if_neg (hqF p (L + 1) htlp)]; exact htlp)
              (pt_index_lt addr (L + 1))
              (by rw [split_mem_ptep (L + 1) hF4 hF53 hsep]
                  exact present_table_entry hF4)
              (by rw [split_mem_ptep (L + 1) hF4 hF53 hsep]
                  exact not_large_table_entry hF4)
            rw [h2, split_mem_ptep (L + 1) hF4 hF53 hsep]
          exact ⟨⟨p, hext p (L + 1) htlp, rfl⟩,
            by rw [hval]; exact present_table_entry hF4,
            by rw [hval]; exact not_large_table_entry hF4,
            by rw [hval, pte_phys_or_small hF4 hF53 (by norm_num)]
               exact hpath2⟩
      · -- present and not large: descend with no change
        have hstep : walkStep alloc addr (L + 1) st
            (p + 8 * pt_index addr (L + 1))
            = ((walkStep alloc addr L st
                  (pte_phys (st.mem (p + 8 * pt_index addr (L + 1)))
                    + 8 * pt_index addr L)).1,
               (walkStep alloc addr L st
                  (pte_phys (st.mem (p + 8 * pt_index addr (L + 1)))
                    + 8 * pt_index addr L)).2.1,
               0 + (walkStep alloc addr L st
                  (pte_phys (st.mem (p + 8 * pt_index addr (L + 1)))
                    + 8 * pt_index addr L)).2.2) := by
          rw [walkStep, if_neg (not_not_intro hp), if_neg hlg]
        rw [hstep]
        dsimp only
        have hchild : tl (pte_phys (st.mem (p + 8 * pt_index addr (L + 1))))
            = some L :=
          hwf.child p L htlp (pt_index addr (L + 1))
            (pt_index_lt addr (L + 1)) hp hlg
        obtain ⟨tl2, hext2, hwf2, hcl, hcu, hpres2, hpath2, q0, hq0, hbot⟩ :=
          walkStep_wf Ha4 Hinj L st tl
            (pte_phys (st.mem (p + 8 * pt_index addr (L + 1)))) hwf hchild
            (fun k h1 h2 => Hb k h1 (by omega))
        refine ⟨tl2, hext2, hwf2, hcl, by omega, hpres2, ?_, q0, hq0, hbot⟩
        have hval := hpres2 p L (pt_index addr (L + 1)) htlp
          (pt_index_lt addr (L + 1)) hp hlg
        exact ⟨⟨p, hext2 p (L + 1) htlp, rfl⟩,
          by rw [hval]; exact hp,
          by rw [hval]; exact hlg,
          by rw [hval]; exact hpath2⟩
    · -- entry absent: allocate a fresh intermediate table
      have hstep : walkStep alloc addr (L + 1) st
          (p + 8 * pt_index addr (L + 1))
          = ((walkStep alloc addr L
                (allocate_intermediate_level alloc st
                  (p + 8 * pt_index addr (L + 1)))
                (alloc st.cnt + 8 * pt_index addr L)).1,
             (walkStep alloc addr L
                (allocate_intermediate_level alloc st
                  (p + 8 * pt_index addr (L + 1)))
                (alloc st.cnt + 8 * pt_index addr L)).2.1,
             1 + (walkStep alloc addr L
                (allocate_intermediate_level alloc st
                  (p + 8 * pt_index addr (L + 1)))
                (alloc st.cnt + 8 * pt_index addr L)).2.2) := by
        rw [walkStep, if_pos hp]
        dsimp only
        rw [alloc_mem_at, pte_phys_or_small hF4 hF53 (by norm_num)]
      rw [hstep]
      dsimp only
      have hwfc := PTWF_newTable hwf htlp (pt_index_lt addr (L + 1))
        Hinj hF4 hF53 rfl
        (alloc_mem_at alloc st (p + 8 * pt_index addr (L + 1)))
        (by
          intro m hLm j hj hpj
          rw [alloc_mem_page hj (hsep j hj)] at hpj
          exact absurd hpj not_present_zero)
        (fun q m j hq hj hne =>
          alloc_mem_other hne (hslot_notF q m j hq hj))
      obtain ⟨tl2, hext2, hwf2, hcl, hcu, hpres2, hpath2, q0, hq0, hbot⟩ :=
        walkStep_wf Ha4 Hinj L
          (allocate_intermediate_level alloc st
            (p + 8 * pt_index addr (L + 1)))
          (fun q => if q = alloc st.cnt then some L else tl q)
          (alloc st.cnt) hwfc
          (show (if alloc st.cnt = alloc st.cnt then some L
              else tl (alloc st.cnt)) = some L by rw [if_pos rfl])
          (by
            intro k h1 h2
            have hcc : (allocate_intermediate_level alloc st
                (p + 8 * pt_index addr (L + 1))).cnt = st.cnt + 1 := rfl
            exact Hb k (by omega) (by omega))
      have hext : ∀ q m, tl q = some m → tl2 q = some m := by
        intro q m hq
        exact hext2 q m (show (if q = alloc st.cnt then some L else tl q)
          = some m by rw [if_neg (hqF q m hq)]; exact hq)
      have hpres : ∀ q m j, tl q = some (m + 1) → j < 512 →
          pte_present (st.mem (q + 8 * j)) →
          ¬ pte_large (st.mem (q + 8 * j)) →
          (walkStep alloc addr L
              (allocate_intermediate_level alloc st
                (p + 8 * pt_index addr (L + 1)))
              (alloc st.cnt + 8 * pt_index addr L)).1.mem (q + 8 * j)
            = st.mem (q + 8 * j) := by
        intro q m j hq hj hpj hlj
        have hne : q + 8 * j ≠ p + 8 * pt_index addr (L + 1) := by
          intro hc
          rw [hc] at hpj
          exact hp hpj
        have hv := alloc_mem_other hne (hslot_notF q (m + 1) j hq hj)
        have h2 := hpres2 q m j
          (show (if q = alloc st.cnt then some L else tl q) = some (m + 1)
            by rw [if_neg (hqF q (m + 1) hq)]; exact hq) hj
          (by rw [hv]; exact hpj) (by rw [hv]; exact hlj)
        rw [h2, hv]
      refine ⟨tl2, hext, hwf2, ?_, ?_, hpres, ?_, q0, hq0, hbot⟩
      · have hcc : (allocate_intermediate_level alloc st
            (p + 8 * pt_index addr (L + 1))).cnt = st.cnt + 1 := rfl
        omega
      · have hcc : (allocate_intermediate_level alloc st
            (p + 8 * pt_index addr (L + 1))).cnt = st.cnt + 1 := rfl
        omega
      · have hval : (walkStep alloc addr L
            (allocate_intermediate_level alloc st
              (p + 8 * pt_index addr (L + 1)))
            (alloc st.cnt + 8 * pt_index addr L)).1.mem
            (p + 8 * pt_index addr (L + 1)) = alloc st.cnt ||| 0x63 := by
          have h2 := hpres2 p L (pt_index addr (L + 1))
            (show (if p = alloc st.cnt then some L else tl p)
              = some (L + 1) by rw [if_neg (hqF p (L + 1) htlp)]; exact htlp)
            (pt_index_lt addr (L + 1))
            (by rw [alloc_mem_at]; exact present_table_entry hF4)
            (by rw [alloc_mem_at]; exact not_large_table_entry hF4)
          rw [h2, alloc_mem_at]
        exact ⟨⟨p, hext p (L + 1) htlp, rfl⟩,
          by rw [hval]; exact present_table_entry hF4,
          by rw [hval]; exact not_large_table_entry hF4,
          by rw [hval, pte_phys_or_small hF4 hF53 (by norm_num)]
             exact hpath2⟩

/-- `populate_page` preserves well-formedness, extends the typing, keeps
present-and-not-large entries of previously typed tables, consumes between
1 and 4 allocator pages, and leaves `addr`'s whole walk materialised. -/
theorem populate_page_wf {alloc : Nat → Nat} {cr3 addr : Nat}
    (Ha4 : ∀ k, alloc k % 4096 = 0)
    (Hinj : ∀ j k, alloc j = alloc k → j = k)
    {st : PTState} {tl : Nat → Option Nat} (hwf : PTWF alloc cr3 st tl)
    (Hb : ∀ k, st.cnt ≤ k → k < st.cnt + 3 → alloc k < 2 ^ 53) :
    ∃ tl2 : Nat → Option Nat,
      (∀ q m, tl q = some m → tl2 q = some m) ∧
      PTWF alloc cr3 (populate_page alloc cr3 addr st).1 tl2 ∧
      st.cnt + 1 ≤ (populate_page alloc cr3 addr st).1.cnt ∧
      (populate_page alloc cr3 addr st).1.cnt ≤ st.cnt + 4 ∧
      (∀ q m j, tl q = some (m + 1) → j < 512 →
        pte_present (st.mem (q + 8 * j)) →
        ¬ pte_large (st.mem (q + 8 * j)) →
        (populate_page alloc cr3 addr st).1.mem (q + 8 * j)
          = st.mem (q + 8 * j)) ∧
      pathTyped (populate_page alloc cr3 addr st).1 tl2 addr 3
        (rootSlot cr3 addr) := by
  obtain ⟨tl2, hext, hwf2, hcl, hcu, hpres, hpath, q0, hq0, hbot⟩ :=
    walkStep_wf Ha4 Hinj 3 st tl (pte_phys cr3) hwf hwf.root Hb
  have hpp : populate_page alloc cr3 addr st
      = ({ mem := writeSlot
             (walkStep alloc addr 3 st
               (pte_phys cr3 + 8 * pt_index addr 3)).1.mem
             (walkStep alloc addr 3 st
               (pte_phys cr3 + 8 * pt_index addr 3)).2.1
             (make_pte (alloc (walkStep alloc addr 3 st
               (pte_phys cr3 + 8 * pt_index addr 3)).1.cnt)),
           cnt := (walkStep alloc addr 3 st
             (pte_phys cr3 + 8 * pt_index addr 3)).1.cnt + 1 },
         (walkStep alloc addr 3 st
           (pte_phys cr3 + 8 * pt_index addr 3)).2.2) := rfl
  rw [hpp]
  dsimp only
  rw [hbot]
  refine ⟨tl2, hext, ?_, ?_, ?_, ?_, ?_⟩
  · exact PTWF_writeLeaf hwf2 hq0 (pt_index_lt addr 0) _
  · omega
  · omega
  · intro q m j hq hj hpj hlj
    have hne : q + 8 * j ≠ q0 + 8 * pt_index addr 0 := by
      intro hc
      have hq2 := hext q (m + 1) hq
      have heq := slots_eq (hwf2.align q _ hq2).1 (hwf2.align q0 _ hq0).1 hj
        (pt_index_lt addr 0) hc
      rw [heq.1, hq0] at hq2
      cases hq2
    rw [writeSlot_ne _ _ _ hne]
    exact hpres q m j hq hj hpj hlj
  · exact pathTyped_writeLeaf (fun p l h => (hwf2.align p l h).1) hq0
      (pt_index_lt addr 0) _ _ hpath

/-- `populate_page` over a list of addresses, from a well-formed state:
well-formedness is preserved, each page costs between 1 and 4 allocator
pages, previously typed tables keep their live entries, and every visited
address ends with a fully materialised walk. -/
theorem populatePages_wf {alloc : Nat → Nat} {cr3 : Nat}
    (Ha4 : ∀ k, alloc k % 4096 = 0)
    (Hinj : ∀ j k, alloc j = alloc k → j = k) :
    ∀ (as : List Nat) (st : PTState) (tl : Nat → Option Nat),
      PTWF alloc cr3 st tl →
      (∀ k, st.cnt ≤ k → k < st.cnt + 4 * as.length → alloc k < 2 ^ 53) →
      ∃ tl2 : Nat → Option Nat,
        (∀ q m, tl q = some m → tl2 q = some m) ∧
        PTWF alloc cr3 (populatePages alloc cr3 st as).1 tl2 ∧
        st.cnt + as.length ≤ (populatePages alloc cr3 st as).1.cnt ∧
        (populatePages alloc cr3 st as).1.cnt ≤ st.cnt + 4 * as.length ∧
        (∀ q m j, tl q = some (m + 1) → j < 512 →
          pte_present (st.mem (q + 8 * j)) →
          ¬ pte_large (st.mem (q + 8 * j)) →
          (populatePages alloc cr3 st as).1.mem (q + 8 * j)
            = st.mem (q + 8 * j)) ∧
        ∀ a ∈ as, pathTyped (populatePages alloc cr3 st as).1 tl2 a 3
          (rootSlot cr3 a)
  | [], st, tl, hwf, _ =>
    ⟨tl, fun _ _ h => h, hwf, by simp [populatePages],
      by simp [populatePages], fun _ _ _ _ _ _ _ => rfl,
      fun a ha => nomatch ha⟩
  | a :: rest, st, tl, hwf, Hb => by
    have hlen : (a :: rest).length = rest.length + 1 := rfl
    obtain ⟨tl1, hext1, hwf1, hcl1, hcu1, hpres1, hpath1⟩ :=
      @populate_page_wf alloc cr3 a Ha4 Hinj st tl hwf
        (fun k h1 h2 => Hb k h1 (by omega))
    obtain ⟨tl2, hext2, hwf2, hcl2, hcu2, hpres2, hpath2⟩ :=
      populatePages_wf Ha4 Hinj rest (populate_page alloc cr3 a st).1 tl1
        hwf1 (fun k h1 h2 => Hb k (by omega) (by omega))
    have hpp : populatePages alloc cr3 st (a :: rest)
        = ((populatePages alloc cr3 (populate_page alloc cr3 a st).1
              rest).1,
           (populate_page alloc cr3 a st).2
             + (populatePages alloc cr3 (populate_page alloc cr3 a st).1
                 rest).2) := rfl
    rw [hpp]
    dsimp only
    refine ⟨tl2, fun q m hq => hext2 q m (hext1 q m hq), hwf2,
      ?_, ?_, ?_, ?_⟩
    · omega
    · omega
    · intro q m j hq hj hpj hlj
      have hv := hpres1 q m j hq hj hpj hlj
      have h2 := hpres2 q m j (hext1 q (m + 1) hq) hj
        (by rw [hv]; exact hpj) (by rw [hv]; exact hlj)
      rw [h2, hv]
    · intro a2 ha2
      rcases List.mem_cons.mp ha2 with h | h
      · subst h
        exact pathTyped_stable hext2 hpres2 hpath1
      · exact hpath2 a2 h

/-- When every address of the list already has a fully materialised walk,
running `populate_page` over the list allocates no intermediate levels at
all: only one leaf page per address. -/
theorem populatePages_noop {alloc : Nat → Nat} {cr3 : Nat} :
    ∀ (as : List Nat) (st : PTState) (tl : Nat → Option Nat),
      PTWF alloc cr3 st tl →
      (∀ a ∈ as, pathTyped st tl a 3 (rootSlot cr3 a)) →
      (populatePages alloc cr3 st as).2 = 0 ∧
      (populatePages alloc cr3 st as).1.cnt = st.cnt + as.length
  | [], _, _, _, _ => ⟨rfl, rfl⟩
  | a :: rest, st, tl, hwf, hpath => by
    have hOK : pathOK cr3 st a :=
      pathTyped_pathOKFrom (hpath a (List.mem_cons_self a rest))
    obtain ⟨q0, hq0, hbot⟩ :=
      pathTyped_descend (hpath a (List.mem_cons_self a rest))
    have hpp : populatePages alloc cr3 st (a :: rest)
        = ((populatePages alloc cr3 (populate_page alloc cr3 a st).1
              rest).1,
           (populate_page alloc cr3 a st).2
             + (populatePages alloc cr3 (populate_page alloc cr3 a st).1
                 rest).2) := rfl
    rw [hpp]
    dsimp only
    rw [populate_page_noop alloc cr3 a st hOK]
    dsimp only
    rw [hbot]
    have hwf1 := PTWF_writeLeaf hwf hq0 (pt_index_lt a 0)
      (make_pte (alloc st.cnt))
    have hpath1 : ∀ a2 ∈ rest,
        pathTyped ⟨writeSlot st.mem (q0 + 8 * pt_index a 0)
          (make_pte (alloc st.cnt)), st.cnt + 1⟩ tl a2 3
          (rootSlot cr3 a2) :=
      fun a2 ha2 => pathTyped_writeLeaf (fun p l h => (hwf.align p l h).1)
        hq0 (pt_index_lt a 0) _ _ (hpath a2 (List.mem_cons_of_mem a ha2))
    obtain ⟨h0, hcnt⟩ := populatePages_noop rest
      ⟨writeSlot st.mem (q0 + 8 * pt_index a 0) (make_pte (alloc st.cnt)),
        st.cnt + 1⟩ tl hwf1 hpath1
    refine ⟨?_, ?_⟩
    · rw [h0]
    · rw [hcnt]
      dsimp only
      rw [List.length_cons]
      omega

/-! ## Claim C9 -/

/-- Claim C9: populating a VMA a second time allocates no new intermediate
page-table levels — the second `populate` over the same VMA performs zero
intermediate-level allocations (every non-bottom entry is found present and
the existing table reused), and consumes exactly one fresh page per page
address of the VMA: the bottom-level leaves.  The hypotheses state that the
initial page-table forest is well formed and that the page allocator hands
out page-aligned, previously unused, distinct pages inside the
physical-address field for the pages the first run can consume. -/
theorem C9_populate_idempotent (alloc : Nat → Nat) (cr3 : Nat) (v : vma)
    (st : PTState) (tl : Nat → Option Nat)
    (hwf : PTWF alloc cr3 st tl)
    (Ha4 : ∀ k, alloc k % 4096 = 0)
    (Hinj : ∀ j k, alloc j = alloc k → j = k)
    (Hb : ∀ k, st.cnt ≤ k → k < st.cnt + 4 * (pageAddrs v).length →
      alloc k < 2 ^ 53) :
    (populate alloc cr3 v (populate alloc cr3 v st).1).2 = 0 ∧
    (populate alloc cr3 v (populate alloc cr3 v st).1).1.cnt
      = (populate alloc cr3 v st).1.cnt + (pageAddrs v).length := by
  obtain ⟨tl2, hext, hwf2, hcl, hcu, hpres, hpath⟩ :=
    populatePages_wf Ha4 Hinj (pageAddrs v) st tl hwf Hb
  exact populatePages_noop (pageAddrs v) (populate alloc cr3 v st).1 tl2
    hwf2 hpath

/-- Witness for C9: one-page VMA `[0, 0x1000)` from the empty table forest
(`cr3 = 0` pointing at the zeroed root), with the allocator handing out
pages 0x1000, 0x2000, ... -/
theorem C9_populate_idempotent_witness :
    (populate (fun k => 4096 * (k + 1)) 0 ⟨0, 4096⟩
        (populate (fun k => 4096 * (k + 1)) 0 ⟨0, 4096⟩
          ⟨fun _ => 0, 0⟩).1).2 = 0 ∧
    (populate (fun k => 4096 * (k + 1)) 0 ⟨0, 4096⟩
        (populate (fun k => 4096 * (k + 1)) 0 ⟨0, 4096⟩
          ⟨fun _ => 0, 0⟩).1).1.cnt
      = (populate (fun k => 4096 * (k + 1)) 0 ⟨0, 4096⟩
          ⟨fun _ => 0, 0⟩).1.cnt + (pageAddrs ⟨0, 4096⟩).length := by
  refine C9_populate_idempotent (fun k => 4096 * (k + 1)) 0 ⟨0, 4096⟩
    ⟨fun _ => 0, 0⟩ (fun p => if p = 0 then some 3 else none)
    ⟨by decide, ?_, ?_, ?_⟩ (fun k => Nat.mul_mod_right 4096 (k + 1))
    (fun j k h => by
      have h2 : 4096 * (j + 1) = 4096 * (k + 1) := h
      omega) ?_
  · intro p l h
    by_cases hp : p = 0
    · subst hp
      refine ⟨by decide, by norm_num⟩
    · rw [if_neg hp] at h
      cases h
  · intro p l hq j hj hpj hlj
    exact absurd hpj not_present_zero
  · intro k hk
    show (if 4096 * (k + 1) = 0 then some 3 else none) = none
    rw [if_neg (by omega)]
  · intro k h1 h2
    have hl : (pageAddrs ⟨0, 4096⟩).length = 1 := by decide
    rw [hl] at h2
    have hc : ({ mem := fun _ => 0, cnt := 0 } : PTState).cnt = 0 := rfl
    rw [hc] at h1 h2
    show 4096 * (k + 1) < 2 ^ 53
    have h53 : (2 : Nat) ^ 53 = 9007199254740992 := by norm_num
    rw [h53]
    omega

/-- Witness for the amended C5 at a concrete state. -/
theorem C5_allocate_intermediate_witness :
    (allocate_intermediate_level (fun _ => 0x1000)
        ⟨fun _ => 0, 0⟩ 0).mem 0 = 0x1000 ||| 0x63 ∧
    (allocate_intermediate_level (fun _ => 0x1000)
        ⟨fun _ => 0, 0⟩ 0).mem (0x1000 + 8 * 3) = 0 := by
  have h := C5_allocate_intermediate (fun _ => 0x1000) ⟨fun _ => 0, 0⟩ 0
    (by decide) (by decide) (by intro j hj; dsimp only; omega)
  exact ⟨h.1, h.2.1 3 (by decide)⟩

end mmu
